import Mathlib

/-!
# Verification of the htmltojson core against its specification

Shallow embedding of the repository's core components:

* `CacheManager` (fingerprint cache with TTL expiry and LRU eviction),
* `Validator` (recursive structural checks over parse results),
* `Formatter` (HTML/XML/JSON/text rendering of the node model),
* `DomTraverser` (depth-bounded extraction of a node-model tree from a
  DOM-like tree),
* `IceblueHtmlParser` (input guard and format dispatch).

JavaScript numbers that only ever hold integral timestamps, TTLs and lengths
are modelled as `Nat`/`Int`; `Date.now()` is passed explicitly as a `now`
argument to every operation that reads the clock.  JavaScript `Map` is
modelled as an association list with insertion order and unique keys
(`Map.set` on an existing key keeps its original position, which `mapSet`
below reproduces).
-/

namespace HtmlToJson

/-! ## CacheManager (src/unnamed/part_004)

State of a `CacheManager` instance.  The payload type is a parameter `α`
(the cache never inspects the stored data).  `expires` is `Option Int`:
`none` models the JavaScript `null` stored when the effective TTL is not
positive. -/

structure CacheItem (α : Type) where
  data : α
  createdAt : Nat
  lastAccessed : Nat
  expires : Option Int
deriving Repr, DecidableEq

structure CacheState (α : Type) where
  cache : List (String × CacheItem α)
  maxSize : Nat
  defaultTTL : Int
  enabled : Bool
deriving Repr, DecidableEq

namespace CacheManager

/-- JavaScript `a || d` for an optional numeric option: `0`, like `undefined`,
is falsy and falls back to the default. -/
def orDefaultNat (o : Option Nat) (d : Nat) : Nat :=
  match o with
  | some v => if v = 0 then d else v
  | none => d

/-- Same as `orDefaultNat` for `Int` options. -/
def orDefaultInt (o : Option Int) (d : Int) : Int :=
  match o with
  | some v => if v = 0 then d else v
  | none => d

/-- Models `constructor(options)`: `maxSize = options.maxSize || 100`,
`defaultTTL = options.ttl || 3600000`, `enabled = options.enabled !== false`. -/
def mk (α : Type) (maxSize : Option Nat) (ttl : Option Int) (enabled : Option Bool) :
    CacheState α :=
  { cache := []
    maxSize := orDefaultNat maxSize 100
    defaultTTL := orDefaultInt ttl 3600000
    enabled := enabled != some false }

/-- Models `Map.get`. -/
def mapGet {α : Type} (m : List (String × CacheItem α)) (k : String) :
    Option (CacheItem α) :=
  match m with
  | [] => none
  | (k', v) :: rest => if k' = k then some v else mapGet rest k

/-- Models `Map.set`: updates an existing key in place (keeping its position) or
appends a new entry at the end, as JavaScript `Map` iteration order does. -/
def mapSet {α : Type} (m : List (String × CacheItem α)) (k : String)
    (v : CacheItem α) : List (String × CacheItem α) :=
  match m with
  | [] => [(k, v)]
  | (k', v') :: rest => if k' = k then (k, v) :: rest else (k', v') :: mapSet rest k v

/-- Models `Map.delete`. -/
def mapDelete {α : Type} (m : List (String × CacheItem α)) (k : String) :
    List (String × CacheItem α) :=
  match m with
  | [] => []
  | (k', v') :: rest => if k' = k then rest else (k', v') :: mapDelete rest k

/-- The guard `item.expires && Date.now() > item.expires`: `expires` must be
truthy (non-`null` and non-zero) and strictly in the past. -/
def expiredAt (expires : Option Int) (now : Nat) : Bool :=
  match expires with
  | none => false
  | some v => v != 0 && (now : Int) > v

/-- Models `get(key)`: returns the hit (if any) and the successor state. -/
def get {α : Type} (st : CacheState α) (key : String) (now : Nat) :
    Option α × CacheState α :=
  if !st.enabled then (none, st)
  else
    match mapGet st.cache key with
    | none => (none, st)
    | some item =>
      if expiredAt item.expires now then
        (none, { st with cache := mapDelete st.cache key })
      else
        (some item.data,
         { st with cache := mapSet st.cache key { item with lastAccessed := now } })

/-- First key of an already-expired entry in iteration order, if any
(the first branch of the `evict` loop). -/
def findExpired {α : Type} (m : List (String × CacheItem α)) (now : Nat) :
    Option String :=
  match m with
  | [] => none
  | (k, item) :: rest =>
    if expiredAt item.expires now then some k else findExpired rest now

/-- The `leastUsedKey` computation of `evict`: `leastUsedTime` starts at
`Infinity` (modelled by the `none` accumulator) and is beaten only by a
strictly smaller `lastAccessed`, so the first occurrence of the minimum wins. -/
def leastUsedAux {α : Type} (m : List (String × CacheItem α))
    (bestKey : Option String) (bestTime : Option Nat) : Option String :=
  match m with
  | [] => bestKey
  | (k, item) :: rest =>
    match bestTime with
    | none => leastUsedAux rest (some k) (some item.lastAccessed)
    | some t =>
      if item.lastAccessed < t then leastUsedAux rest (some k) (some item.lastAccessed)
      else leastUsedAux rest bestKey (some t)

def leastUsed {α : Type} (m : List (String × CacheItem α)) : Option String :=
  leastUsedAux m none none

/-- Models `evict()`: the source loop deletes the first already-expired entry it
meets and returns; only if no entry is expired does the loop finish and the
least-recently-used key get deleted.  The final `if (leastUsedKey)` is a
truthiness test, so a `null` or empty-string key is not deleted. -/
def evict {α : Type} (st : CacheState α) (now : Nat) : CacheState α :=
  if st.cache.length = 0 then st
  else
    match findExpired st.cache now with
    | some k => { st with cache := mapDelete st.cache k }
    | none =>
      match leastUsed st.cache with
      | some k =>
        if k ≠ "" then { st with cache := mapDelete st.cache k } else st
      | none => st

/-- Models `set(key, data, ttl = null)`: evicts once when at (or beyond) capacity,
then stores the new item.  `ttlValue = ttl !== null ? ttl : this.defaultTTL`,
and `expires = ttlValue > 0 ? Date.now() + ttlValue : null`. -/
def set {α : Type} (st : CacheState α) (key : String) (data : α)
    (ttl : Option Int) (now : Nat) : CacheState α :=
  if !st.enabled then st
  else
    let st1 := if st.cache.length ≥ st.maxSize then evict st now else st
    let ttlValue := match ttl with
      | some v => v
      | none => st.defaultTTL
    let item : CacheItem α :=
      { data := data
        createdAt := now
        lastAccessed := now
        expires := if ttlValue > 0 then some ((now : Int) + ttlValue) else none }
    { st1 with cache := mapSet st1.cache key item }

/-- Models `has(key)`: note there is no `enabled` check, and an expired entry is
deleted as a side effect; `lastAccessed` is not updated. -/
def hasKey {α : Type} (st : CacheState α) (key : String) (now : Nat) :
    Bool × CacheState α :=
  match mapGet st.cache key with
  | none => (false, st)
  | some item =>
    if expiredAt item.expires now then
      (false, { st with cache := mapDelete st.cache key })
    else (true, st)

/-- Models `delete(key)`. -/
def deleteKey {α : Type} (st : CacheState α) (key : String) :
    Bool × CacheState α :=
  ((mapGet st.cache key).isSome, { st with cache := mapDelete st.cache key })

/-- Models `clear()`. -/
def clear {α : Type} (st : CacheState α) : CacheState α :=
  { st with cache := [] }

/-- Models `cleanup()`: removes every expired entry, returning the count removed. -/
def cleanup {α : Type} (st : CacheState α) (now : Nat) : Nat × CacheState α :=
  let kept := st.cache.filter (fun e => !expiredAt e.2.expires now)
  (st.cache.length - kept.length, { st with cache := kept })

end CacheManager

/-! ## A model of JavaScript values

The Validator (src/src/backend/parser/Validator.js) is duck-typed: it takes an
arbitrary JavaScript value and inspects it with truthiness tests, `typeof`
checks and property accesses.  `JSValue` models the values that can reach it;
JavaScript numbers that matter here are integral, so they are modelled as
`Int`. -/

inductive JSValue where
  | null
  | undefined
  | bool (b : Bool)
  | num (n : Int)
  | str (s : String)
  | arr (elems : List JSValue)
  | obj (fields : List (String × JSValue))
deriving Repr

/-- JavaScript truthiness. -/
def truthy : JSValue → Bool
  | .null => false
  | .undefined => false
  | .bool b => b
  | .num n => n != 0
  | .str s => s ≠ ""
  | .arr _ => true
  | .obj _ => true

/-- Models `typeof v === 'object'` (true for `null`, arrays and plain objects). -/
def typeofIsObject : JSValue → Bool
  | .null => true
  | .arr _ => true
  | .obj _ => true
  | _ => false

/-- Models `typeof v === 'string'`. -/
def typeofIsString : JSValue → Bool
  | .str _ => true
  | _ => false

/-- Models `typeof v === 'number'`. -/
def typeofIsNumber : JSValue → Bool
  | .num _ => true
  | _ => false

/-- Models `Array.isArray(v)`. -/
def isJsArray : JSValue → Bool
  | .arr _ => true
  | _ => false

def lookupField (fields : List (String × JSValue)) (k : String) : Option JSValue :=
  match fields with
  | [] => none
  | (k', v) :: rest => if k' = k then some v else lookupField rest k

/-- Property access `v.k`: an absent key, or access on a primitive, yields
`undefined` (the Validator only dereferences values it has already checked
to be truthy, so the throwing `null.k`/`undefined.k` accesses are
unreachable in it and are also mapped to `undefined`). -/
def getField (v : JSValue) (k : String) : JSValue :=
  match v with
  | .obj fields =>
    match lookupField fields k with
    | some x => x
    | none => .undefined
  | _ => .undefined

/-- String conversion used by template literals such as
`` `Invalid node type: ${node.type}` ``. -/
def jsDisplay : JSValue → String
  | .null => "null"
  | .undefined => "undefined"
  | .bool b => cond b "true" "false"
  | .num n => toString n
  | .str s => s
  | .arr _ => ""
  | .obj _ => "[object Object]"

/-! ## Validator (src/src/backend/parser/Validator.js)

The constructor stores `strict`, `maxDepth` (default 100) and `maxTextLength`
(default 10000).  `strict` is read only by `validateStructure` (for the
missing-root warning), so the recursive node check takes only the two
numeric options, exactly mirroring which fields each method reads. -/

structure ValidationReport where
  valid : Bool
  errors : List String
  warnings : List String
deriving Repr, DecidableEq

/-- An `{ errors, warnings }` pair as returned by the internal
`validate*` helpers. -/
structure VR where
  errors : List String
  warnings : List String
deriving Repr, DecidableEq

namespace Validator

/-- Models `constructor(options)`: `strict = options.strict || false`,
`maxDepth = options.maxDepth || 100` (via `CONSTANTS.DEFAULTS.MAX_DEPTH`),
`maxTextLength = options.maxTextLength || 10000`. -/
structure Options where
  strict : Bool
  maxDepth : Nat
  maxTextLength : Nat
deriving Repr, DecidableEq

def mkOptions (strict : Option Bool) (maxDepth : Option Nat)
    (maxTextLength : Option Nat) : Options :=
  { strict := strict.getD false
    maxDepth := CacheManager.orDefaultNat maxDepth 100
    maxTextLength := CacheManager.orDefaultNat maxTextLength 10000 }

mutual

/-- Models `validateNode(node, depth)`.  The recursion is bounded because the
over-depth branch returns before any recursive call, which gives the
termination measure `maxDepth + 2 - depth`. -/
def validateNode (maxDepth maxTextLength : Nat) (depth : Nat) (node : JSValue) :
    VR :=
  if !(truthy node && typeofIsObject node) then
    ⟨["Node must be an object"], []⟩
  else if _h : depth > maxDepth then
    ⟨["Node depth exceeds maximum depth of " ++ toString maxDepth], []⟩
  else
    let typeField := getField node "type"
    let typeErrs :=
      if !truthy typeField then ["Node missing type field"]
      else if !(typeField matches .str "element" | .str "text" |
                .str "comment" | .str "document") then
        ["Invalid node type: " ++ jsDisplay typeField]
      else []
    let elemErrs :=
      if typeField matches .str "element" then
        (if !(truthy (getField node "tag") && typeofIsString (getField node "tag")) then
          ["Element node missing or invalid tag"]
        else []) ++
        (if truthy (getField node "attributes") &&
            !typeofIsObject (getField node "attributes") then
          ["Element node attributes must be an object"]
        else [])
      else []
    let textRes : VR :=
      if typeField matches .str "text" then
        match getField node "text" with
        | .undefined => ⟨["Text node missing text field"], []⟩
        | .str s =>
          if s.length > maxTextLength then
            ⟨[], ["Text node text length exceeds recommended maximum of " ++
                  toString maxTextLength]⟩
          else ⟨[], []⟩
        | _ => ⟨["Text node text must be a string"], []⟩
      else ⟨[], []⟩
    let childRes : VR :=
      if truthy (getField node "children") then
        match getField node "children" with
        | .arr cs => validateChildren maxDepth maxTextLength (depth + 1) 0 cs
        | _ => ⟨["Node children must be an array"], []⟩
      else ⟨[], []⟩
    ⟨typeErrs ++ elemErrs ++ textRes.errors ++ childRes.errors,
     textRes.warnings ++ childRes.warnings⟩
termination_by (maxDepth + 2 - depth, 0)
decreasing_by
  simp_wf
  apply Prod.Lex.left
  omega

/-- The `node.children.forEach` loop: each child's messages are prefixed
with `Child[i]: `. -/
def validateChildren (maxDepth maxTextLength : Nat) (depth : Nat) (idx : Nat)
    (cs : List JSValue) : VR :=
  match cs with
  | [] => ⟨[], []⟩
  | c :: rest =>
    let r := validateNode maxDepth maxTextLength depth c
    let tail := validateChildren maxDepth maxTextLength depth (idx + 1) rest
    ⟨r.errors.map (fun e => "Child[" ++ toString idx ++ "]: " ++ e) ++ tail.errors,
     r.warnings.map (fun w => "Child[" ++ toString idx ++ "]: " ++ w) ++ tail.warnings⟩
termination_by (maxDepth + 2 - depth, cs.length + 1)
decreasing_by
  all_goals simp_wf
  all_goals apply Prod.Lex.right
  all_goals omega

end

/-- Models `validateStructure(structure)`: reads `this.options.strict`. -/
def validateStructure (strict : Bool) (maxDepth maxTextLength : Nat)
    (structure' : JSValue) : VR :=
  if !typeofIsObject structure' || structure' matches .null then
    ⟨["Structure must be an object"], []⟩
  else if truthy (getField structure' "root") then
    validateNode maxDepth maxTextLength 0 (getField structure' "root")
  else if strict then
    ⟨[], ["Structure missing root node"]⟩
  else ⟨[], []⟩

/-- Models `validateMetadata(metadata)`. -/
def validateMetadata (metadata : JSValue) : VR :=
  if !typeofIsObject metadata || metadata matches .null then
    ⟨["Metadata must be an object"], []⟩
  else
    let titleErrs :=
      if !(getField metadata "title" matches .undefined) &&
          !typeofIsString (getField metadata "title") then
        ["Metadata title must be a string"]
      else []
    let descErrs :=
      if !(getField metadata "description" matches .undefined) &&
          !typeofIsString (getField metadata "description") then
        ["Metadata description must be a string"]
      else []
    let kwErrs :=
      if getField metadata "keywords" matches .undefined then []
      else
        match getField metadata "keywords" with
        | .arr ks =>
          (ks.enum.filter (fun p => !typeofIsString p.2)).map
            (fun p => "Metadata keywords[" ++ toString p.1 ++ "] must be a string")
        | _ => ["Metadata keywords must be an array"]
    let urlErrs :=
      if !(getField metadata "url" matches .undefined) &&
          !typeofIsString (getField metadata "url") then
        ["Metadata url must be a string"]
      else []
    ⟨titleErrs ++ descErrs ++ kwErrs ++ urlErrs, []⟩

/-- Models `validateStats(stats)`. -/
def validateStats (stats : JSValue) : VR :=
  if !typeofIsObject stats || stats matches .null then
    ⟨["Stats must be an object"], []⟩
  else
    let fields := ["totalElements", "totalTextLength", "depth", "duration"]
    ⟨(fields.filter (fun f =>
        !(getField stats f matches .undefined) &&
        !typeofIsNumber (getField stats f))).map
      (fun f => "Stats " ++ f ++ " must be a number"), []⟩

/-- Models `validateImage(image)`. -/
def validateImage (image : JSValue) : VR :=
  if !(truthy image && typeofIsObject image) then
    ⟨["Image must be an object"], []⟩
  else
    let srcErrs :=
      if !(truthy (getField image "src") && typeofIsString (getField image "src")) then
        ["Image missing or invalid src field"]
      else []
    let wErrs :=
      if !(getField image "width" matches .undefined) &&
          !(match getField image "width" with
            | .num n => n ≥ 0
            | _ => false) then
        ["Image width must be a non-negative number"]
      else []
    let hErrs :=
      if !(getField image "height" matches .undefined) &&
          !(match getField image "height" with
            | .num n => n ≥ 0
            | _ => false) then
        ["Image height must be a non-negative number"]
      else []
    ⟨srcErrs ++ wErrs ++ hErrs, []⟩

/-- Models `validateLink(link)`. -/
def validateLink (link : JSValue) : VR :=
  if !(truthy link && typeofIsObject link) then
    ⟨["Link must be an object"], []⟩
  else
    let hrefErrs :=
      if !(truthy (getField link "href") && typeofIsString (getField link "href")) then
        ["Link missing or invalid href field"]
      else []
    let textErrs :=
      if !(getField link "text" matches .undefined) &&
          !typeofIsString (getField link "text") then
        ["Link text must be a string"]
      else []
    ⟨hrefErrs ++ textErrs, []⟩

/-- Index-prefixed accumulation for the `images`/`links` arrays. -/
def validateIndexed (tag : String) (f : JSValue → VR) (idx : Nat)
    (elems : List JSValue) : VR :=
  match elems with
  | [] => ⟨[], []⟩
  | e :: rest =>
    let r := f e
    let tail := validateIndexed tag f (idx + 1) rest
    ⟨r.errors.map (fun m => tag ++ "[" ++ toString idx ++ "]: " ++ m) ++ tail.errors,
     r.warnings.map (fun m => tag ++ "[" ++ toString idx ++ "]: " ++ m) ++ tail.warnings⟩

/-- Models `validateData(data)`. -/
def validateData (strict : Bool) (maxDepth maxTextLength : Nat) (data : JSValue) :
    VR :=
  let m : VR :=
    if truthy (getField data "metadata") then
      validateMetadata (getField data "metadata")
    else ⟨[], []⟩
  let s : VR :=
    if truthy (getField data "structure") then
      validateStructure strict maxDepth maxTextLength (getField data "structure")
    else ⟨[], []⟩
  let st : VR :=
    if truthy (getField data "stats") then validateStats (getField data "stats")
    else ⟨[], []⟩
  let im : VR :=
    if truthy (getField data "images") then
      match getField data "images" with
      | .arr is => validateIndexed "Image" validateImage 0 is
      | _ => ⟨["Images must be an array"], []⟩
    else ⟨[], []⟩
  let li : VR :=
    if truthy (getField data "links") then
      match getField data "links" with
      | .arr ls => validateIndexed "Link" validateLink 0 ls
      | _ => ⟨["Links must be an array"], []⟩
    else ⟨[], []⟩
  ⟨m.errors ++ s.errors ++ st.errors ++ im.errors ++ li.errors,
   m.warnings ++ s.warnings ++ st.warnings ++ im.warnings ++ li.warnings⟩

/-- Models `validate(result)`. -/
def validate (opts : Options) (result : JSValue) : ValidationReport :=
  if !truthy result then
    { valid := false, errors := ["Result is null or undefined"], warnings := [] }
  else
    let successErrs :=
      if getField result "success" matches .undefined then ["Missing success field"]
      else []
    let dataRes : VR :=
      if truthy (getField result "success") && truthy (getField result "data") then
        validateData opts.strict opts.maxDepth opts.maxTextLength
          (getField result "data")
      else ⟨[], []⟩
    let missingErrWarn :=
      if !truthy (getField result "success") && !truthy (getField result "error") then
        ["Error result missing error message"]
      else []
    let errors := successErrs ++ dataRes.errors
    { valid := errors.length = 0
      errors := errors
      warnings := dataRes.warnings ++ missingErrWarn }

end Validator

/-! ## The Node Model

The tagged-union tree produced by extraction and consumed by the Formatter.
`children = none` models an element object carrying no `children` key at all,
`children = some l` an element whose `children` key holds the array `l` —
the distinction the spec attributes to the depth cutoff.  Attribute values
are strings (the extractor only ever stores strings there), so the
`null`-attribute rendering branch of `formatAttributes` is unreachable for
node-model trees. -/

inductive Node where
  | element (tag : String) (attributes : List (String × String))
      (children : Option (List Node))
  | text (s : String)
  | comment (s : String)
deriving Repr

/-- The characters trimmed by JavaScript `String.prototype.trim` that can
occur here (ASCII whitespace plus NBSP and the BOM). -/
def isJsSpace (c : Char) : Bool :=
  c = ' ' || c = '\t' || c = '\n' || c = '\r' || c = '\x0b' || c = '\x0c' ||
  c = ' ' || c = '﻿'

/-- Models `s.trim()`. -/
def jsTrim (s : String) : String :=
  String.mk (((s.data.dropWhile isJsSpace).reverse.dropWhile isJsSpace).reverse)

/-- Models `s.toLowerCase()` (ASCII case mapping, which is all the tag and format
names here use). -/
def jsToLower (s : String) : String :=
  String.mk (s.data.map Char.toLower)

namespace Formatter

/-! JavaScript strings in the HTML rendering path are modelled as `List Char`
(the parse model below consumes them character by character); the other
formats render to `String`. -/

/-- One character of `escapeHTML` (the five-entry replacement map). -/
def escapeHTMLChar (c : Char) : List Char :=
  if c = '&' then ['&', 'a', 'm', 'p', ';']
  else if c = '<' then ['&', 'l', 't', ';']
  else if c = '>' then ['&', 'g', 't', ';']
  else if c = '"' then ['&', 'q', 'u', 'o', 't', ';']
  else if c = '\'' then ['&', '#', '0', '3', '9', ';']
  else [c]

/-- Models `escapeHTML` over a character list. -/
def escListHTML : List Char → List Char
  | [] => []
  | c :: cs => escapeHTMLChar c ++ escListHTML cs

/-- One character of `escapeXML` (apostrophe goes to `&apos;` instead of
`&#039;`). -/
def escapeXMLChar (c : Char) : List Char :=
  if c = '&' then ['&', 'a', 'm', 'p', ';']
  else if c = '<' then ['&', 'l', 't', ';']
  else if c = '>' then ['&', 'g', 't', ';']
  else if c = '"' then ['&', 'q', 'u', 'o', 't', ';']
  else if c = '\'' then ['&', 'a', 'p', 'o', 's', ';']
  else [c]

def escListXML : List Char → List Char
  | [] => []
  | c :: cs => escapeXMLChar c ++ escListXML cs

def escapeXML (s : String) : String :=
  String.mk (escListXML s.data)

/-- Models `formatAttributes`: `' ' + pairs.join(' ')` puts one space before every
pair, and the empty-attributes guard returns `''`, which the fold also
produces.  Attribute values are strings, so every pair renders as
`key="escapedValue"`. -/
def formatAttributes (attrs : List (String × String)) : List Char :=
  attrs.foldr
    (fun kv acc =>
      ' ' :: kv.1.data ++ '=' :: '"' :: escListHTML kv.2.data ++ '"' :: acc)
    []

/-- Models `isSelfClosingTag(tag)`. -/
def isSelfClosingTag (tag : String) : Bool :=
  (jsToLower tag) ∈ ["img", "br", "hr", "input", "meta", "link", "area",
    "base", "col", "embed", "source", "track", "wbr"]

mutual

/-- Models `nodeToHTML(node)`: `node.tag || 'div'` is the empty-tag fallback and
`node.children || []` reads a missing `children` key as the empty list. -/
def nodeToHTML : Node → List Char
  | .text s => escListHTML s.data
  | .element tag attrs children =>
    let t := if tag = "" then "div" else tag
    let a := formatAttributes attrs
    let cs := match children with
      | none => []
      | some l => nodesToHTML l
    if isSelfClosingTag t then
      '<' :: t.data ++ a ++ [' ', '/', '>']
    else
      '<' :: t.data ++ a ++ '>' :: cs ++ '<' :: '/' :: t.data ++ ['>']
  | .comment s =>
    '<' :: '!' :: '-' :: '-' :: ' ' :: escListHTML s.data ++ [' ', '-', '-', '>']

/-- The `.map(child => this.nodeToHTML(child)).join('')` over children. -/
def nodesToHTML : List Node → List Char
  | [] => []
  | n :: ns => nodeToHTML n ++ nodesToHTML ns

end

/-- Models `'  '.repeat(indent)` (two spaces per level). -/
def indentStr (n : Nat) : String :=
  String.mk (List.replicate (2 * n) ' ')

/-- Models `formatXMLAttributes`: attribute keys sanitized to `[A-Za-z0-9_-]`. -/
def xmlNameChar (c : Char) : Bool :=
  ('a' ≤ c && c ≤ 'z') || ('A' ≤ c && c ≤ 'Z') || ('0' ≤ c && c ≤ '9') ||
  c = '_' || c = '-'

def formatXMLAttributes (attrs : List (String × String)) : String :=
  attrs.foldr
    (fun kv acc =>
      " " ++ String.mk (kv.1.data.map (fun c => if xmlNameChar c then c else '_')) ++
      "=\"" ++ escapeXML kv.2 ++ "\"" ++ acc)
    ""

mutual

/-- Models `nodeToXML(node, indent)`: children are rendered one level deeper,
whitespace-only renderings are filtered out (`.filter(child => child.trim())`),
and an element whose joined children string is empty renders self-closed. -/
def nodeToXML (indent : Nat) : Node → String
  | .text s => indentStr indent ++ escapeXML s
  | .element tag attrs children =>
    let t := if tag = "" then "element" else tag
    let a := formatXMLAttributes attrs
    let rendered := (match children with
      | none => []
      | some l => nodesToXML (indent + 1) l).filter (fun c => jsTrim c ≠ "")
    let childrenStr := String.intercalate "\n" rendered
    if childrenStr = "" then
      indentStr indent ++ "<" ++ t ++ a ++ " />"
    else
      indentStr indent ++ "<" ++ t ++ a ++ ">" ++ "\n" ++ childrenStr ++ "\n" ++
        indentStr indent ++ "</" ++ t ++ ">"
  | .comment s => indentStr indent ++ "<!-- " ++ escapeXML s ++ " -->"

def nodesToXML (indent : Nat) : List Node → List String
  | [] => []
  | n :: ns => nodeToXML indent n :: nodesToXML indent ns

end

mutual

/-- The `extractAllText` walk of `toText`: indented non-empty text nodes in
document order; children are walked one level deeper when a `children` key
is present. -/
def extractAllText (depth : Nat) : Node → List String
  | .text s => if s = "" then [] else [indentStr depth ++ s]
  | .element _ _ children =>
    match children with
    | none => []
    | some l => extractAllTextList (depth + 1) l
  | .comment _ => []

def extractAllTextList (depth : Nat) : List Node → List String
  | [] => []
  | n :: ns => extractAllText depth n ++ extractAllTextList depth ns

end

end Formatter

/-- The slice of a parse-result `data` object that the Formatter reads:
`data.root` and `data.structure.root`. -/
structure DocumentData where
  root : Option Node
  structureRoot : Option Node
deriving Repr

namespace Formatter

/-- Models `toHTML(data)`: `''` without a root, else the root rendered. -/
def toHTML (data : DocumentData) : String :=
  match data.root with
  | none => ""
  | some r => String.mk (nodeToHTML r)

/-- Models `toXML(data)`. -/
def toXML (data : DocumentData) : String :=
  match data.root with
  | none => "<?xml version=\"1.0\" encoding=\"UTF-8\"?><root></root>"
  | some r => "<?xml version=\"1.0\" encoding=\"UTF-8\"?>\n" ++ nodeToXML 0 r

/-- Models `toText(data)`: walks `data.root`, falling back to
`data.structure.root`. -/
def toText (data : DocumentData) : String :=
  let parts := match data.root with
    | some r => extractAllText 0 r
    | none =>
      match data.structureRoot with
      | some r => extractAllText 0 r
      | none => []
  String.intercalate "\n" parts

mutual

/-- Models `removeEmptyValues(obj)`: arrays map-then-filter, objects drop
`null`/`undefined`/`''`/empty-array/empty-object values before recursing,
primitives pass through. -/
def removeEmptyValues : JSValue → JSValue
  | .arr items =>
    .arr ((removeEmptyList items).filter fun item =>
      match item with
      | .obj fs => fs.length > 0
      | .arr l => l.length > 0
      | .null => false
      | .undefined => false
      | .str s => s ≠ ""
      | _ => true)
  | .obj fields => .obj (removeEmptyFields fields)
  | v => v

def removeEmptyList : List JSValue → List JSValue
  | [] => []
  | v :: rest => removeEmptyValues v :: removeEmptyList rest

def removeEmptyFields : List (String × JSValue) → List (String × JSValue)
  | [] => []
  | (k, v) :: rest =>
    let skip := match v with
      | .null => true
      | .undefined => true
      | .str s => s = ""
      | .arr l => l.length = 0
      | .obj fs => fs.length = 0
      | _ => false
    if skip then removeEmptyFields rest
    else (k, removeEmptyValues v) :: removeEmptyFields rest

end

mutual

/-- Models `sortObjectKeys(obj)`: object keys are sorted (JavaScript default string
sort is lexicographic and stable); values are recursed.  Recursing before
sorting is equivalent since the sort only inspects keys. -/
def sortObjectKeys : JSValue → JSValue
  | .arr items => .arr (sortKeysList items)
  | .obj fields =>
    .obj ((sortKeysFields fields).mergeSort (fun a b => decide (a.1 ≤ b.1)))
  | v => v

def sortKeysList : List JSValue → List JSValue
  | [] => []
  | v :: rest => sortObjectKeys v :: sortKeysList rest

def sortKeysFields : List (String × JSValue) → List (String × JSValue)
  | [] => []
  | (k, v) :: rest => (k, sortObjectKeys v) :: sortKeysFields rest

end

/-- Hexadecimal digit for the `\u00XX` escapes of `JSON.stringify`. -/
def hexDigit (n : Nat) : Char :=
  if n < 10 then Char.ofNat (48 + n) else Char.ofNat (87 + n)

/-- String-character escaping of `JSON.stringify`. -/
def jsonEscapeChar (c : Char) : List Char :=
  if c = '"' then ['\\', '"']
  else if c = '\\' then ['\\', '\\']
  else if c = '\n' then ['\\', 'n']
  else if c = '\r' then ['\\', 'r']
  else if c = '\t' then ['\\', 't']
  else if c = '\x08' then ['\\', 'b']
  else if c = '\x0c' then ['\\', 'f']
  else if c.toNat < 32 then
    ['\\', 'u', '0', '0', hexDigit (c.toNat / 16), hexDigit (c.toNat % 16)]
  else [c]

def jsonEscList : List Char → List Char
  | [] => []
  | c :: cs => jsonEscapeChar c ++ jsonEscList cs

def jsonQuote (s : String) : String :=
  "\"" ++ String.mk (jsonEscList s.data) ++ "\""

def jsonPad (gap level : Nat) : String :=
  String.mk (List.replicate (gap * level) ' ')

mutual

/-- Model of `JSON.stringify(value, null, gap)` at nesting depth `level`.
`none` models the `undefined` result for an `undefined` top-level value;
`undefined` array elements print as `null` and `undefined` object fields
are skipped, as the builtin does. -/
def jsonStringify (gap level : Nat) : JSValue → Option String
  | .undefined => none
  | .null => some "null"
  | .bool b => some (cond b "true" "false")
  | .num n => some (toString n)
  | .str s => some (jsonQuote s)
  | .arr items =>
    match items with
    | [] => some "[]"
    | _ =>
      let parts := jsonStringifyArr gap (level + 1) items
      if gap = 0 then some ("[" ++ String.intercalate "," parts ++ "]")
      else
        some ("[" ++ "\n" ++
          String.intercalate ",\n" (parts.map (fun p => jsonPad gap (level + 1) ++ p)) ++
          "\n" ++ jsonPad gap level ++ "]")
  | .obj fields =>
    let parts := jsonStringifyObj gap (level + 1) fields
    match parts with
    | [] => some "\x7b\x7d"
    | _ =>
      if gap = 0 then some ("\x7b" ++ String.intercalate "," parts ++ "\x7d")
      else
        some ("\x7b" ++ "\n" ++
          String.intercalate ",\n" (parts.map (fun p => jsonPad gap (level + 1) ++ p)) ++
          "\n" ++ jsonPad gap level ++ "\x7d")

def jsonStringifyArr (gap level : Nat) : List JSValue → List String
  | [] => []
  | v :: rest =>
    ((jsonStringify gap level v).getD "null") :: jsonStringifyArr gap level rest

def jsonStringifyObj (gap level : Nat) : List (String × JSValue) → List String
  | [] => []
  | (k, v) :: rest =>
    match jsonStringify gap level v with
    | none => jsonStringifyObj gap level rest
    | some sv =>
      (jsonQuote k ++ (if gap = 0 then ":" else ": ") ++ sv) ::
        jsonStringifyObj gap level rest

end

/-- Models `toJSON(data, options)`: `indent` defaults to `this.indentSize = 2`;
`excludeEmpty` and `sortKeys` are orthogonal pre-serialization transforms.
The `.getD ""` is never exercised for a document (an object never
stringifies to `undefined`). -/
structure FormatOptions where
  indent : Option Nat
  sortKeys : Bool
  excludeEmpty : Bool
deriving Repr, DecidableEq

def toJSON (data : JSValue) (opts : FormatOptions) : String :=
  let indent := opts.indent.getD 2
  let d1 := if opts.excludeEmpty then removeEmptyValues data else data
  let d2 := if opts.sortKeys then sortObjectKeys d1 else d1
  (jsonStringify indent 0 d2).getD ""

end Formatter

mutual

/-- The JSON view of the document slice handed to the Formatter, used by the
`json` branch of `format` (the extractor's node objects carry `type`, `tag`,
`attributes` and, when present, `children`/`text` keys). -/
def jsonOfNode : Node → JSValue
  | .element tag attrs children =>
    .obj ([("type", JSValue.str "element"), ("tag", JSValue.str tag),
           ("attributes", JSValue.obj (attrs.map (fun kv => (kv.1, JSValue.str kv.2))))] ++
          (match children with
           | none => []
           | some l => [("children", JSValue.arr (jsonOfNodes l))]))
  | .text s => .obj [("type", JSValue.str "text"), ("text", JSValue.str s)]
  | .comment s => .obj [("type", JSValue.str "comment"), ("text", JSValue.str s)]

def jsonOfNodes : List Node → List JSValue
  | [] => []
  | n :: ns => jsonOfNode n :: jsonOfNodes ns

end

def jsonOfDocument (data : DocumentData) : JSValue :=
  .obj ((match data.root with
         | some r => [("root", jsonOfNode r)]
         | none => []) ++
        (match data.structureRoot with
         | some r => [("structure", JSValue.obj [("root", jsonOfNode r)])]
         | none => []))

/-- Models `ERROR_CODES` from the shared constants module
(src/unnamed/part_007). -/
def ERROR_CODES : List String :=
  ["PARSE_FAILED", "INVALID_HTML", "TIMEOUT", "NETWORK_ERROR",
   "RATE_LIMIT_EXCEEDED", "AUTH_FAILED", "VALIDATION_ERROR"]

/-- A `parse` return value: `success: true` with data, or `success: false`
with `error` and `errorCode` and no `data` key (the wall-clock `duration`
field is omitted from the model). -/
inductive ParseResult (δ : Type) where
  | ok (data : δ)
  | err (error : String) (errorCode : String)
deriving Repr, DecidableEq

namespace IceblueHtmlParser

/-- The input guard of `IceblueHtmlParser.parse`:
`if (!html || typeof html !== 'string') throw new Error('Invalid HTML input')`,
caught by the surrounding `try`/`catch` which returns
`{ success: false, error, errorCode: CONSTANTS.ERROR_CODES.PARSE_FAILED }`.
The DOM-dependent remainder of `parse` is abstracted as `restOfParse`
(an exception there is caught by the same handler). -/
def parseTop {δ : Type} (restOfParse : String → Except String δ) (html : JSValue) :
    ParseResult δ :=
  match html with
  | .str s =>
    if s = "" then .err "Invalid HTML input" "PARSE_FAILED"
    else
      match restOfParse s with
      | .ok d => .ok d
      | .error m => .err m "PARSE_FAILED"
  | _ => .err "Invalid HTML input" "PARSE_FAILED"

/-- Models `format(data, format, options)`: dispatch on `format.toLowerCase()`;
unknown names throw `Unsupported format: ${format}` (modelled as
`Except.error`). -/
def format (data : DocumentData) (fmt : String) (opts : Formatter.FormatOptions) :
    Except String String :=
  let f := jsToLower fmt
  if f = "json" then .ok (Formatter.toJSON (jsonOfDocument data) opts)
  else if f = "text" then .ok (Formatter.toText data)
  else if f = "html" then .ok (Formatter.toHTML data)
  else if f = "xml" then .ok (Formatter.toXML data)
  else .error ("Unsupported format: " ++ fmt)

end IceblueHtmlParser

namespace IceblueParser

/-- Models `IceblueParser.parseAndFormat` (src/src/frontend/index.js): re-throws the
parse error (`result.error || 'Parse failed'`) and otherwise calls
`this.parser.format` with no catch around it, so a format failure
propagates to the caller unchanged. -/
def parseAndFormat (result : ParseResult DocumentData) (fmt : String)
    (opts : Formatter.FormatOptions) : Except String String :=
  match result with
  | .err e _ => .error (if e = "" then "Parse failed" else e)
  | .ok data => IceblueHtmlParser.format data fmt opts

end IceblueParser

/-! ## DomTraverser (src/src/frontend/parser/DomTraverser.js)

The DOM-like input tree.  An element exposes `tagName`, an ordered attribute
enumeration and `childNodes`; `element.id`/`element.className` reflect the
`id`/`class` attributes.  Text and comment nodes expose `textContent` and
have empty `childNodes`.  `other` stands for any further node kind
(document, doctype, CDATA, ...), which `processNode` maps to `null`. -/

inductive Dom where
  | element (tagName : String) (attrs : List (String × String)) (childNodes : List Dom)
  | text (textContent : String)
  | comment (textContent : String)
  | other (childNodes : List Dom)
deriving Repr

namespace DomTraverser

/-- JavaScript object insert-or-update: an existing key keeps its position,
a new key is appended — `result.attributes[attr.name] = attr.value`. -/
def objSet (m : List (String × String)) (k v : String) : List (String × String) :=
  match m with
  | [] => [(k, v)]
  | (k', v') :: rest => if k' = k then (k, v) :: rest else (k', v') :: objSet rest k v

def objLookup (m : List (String × String)) (k : String) : Option String :=
  match m with
  | [] => none
  | (k', v) :: rest => if k' = k then some v else objLookup rest k

/-- Models `processElement`: the tag is lowercased, the DOM attributes are copied
in order, then non-empty `element.id` / `element.className` (which reflect
the `id`/`class` attributes, empty string when absent) are written back into
the map. -/
def processElement (tagName : String) (attrs : List (String × String)) :
    String × List (String × String) :=
  let tag := jsToLower tagName
  let copied := attrs.foldl (fun acc kv => objSet acc kv.1 kv.2) []
  let idVal := (objLookup attrs "id").getD ""
  let a1 := if idVal ≠ "" then objSet copied "id" idVal else copied
  let classVal := (objLookup attrs "class").getD ""
  let a2 := if classVal ≠ "" then objSet a1 "class" classVal else a1
  (tag, a2)

mutual

/-- Models `traverse(node)`: returns `null` once `currentDepth` reaches `maxDepth`;
otherwise classifies the node (`processNode`), and — only when the input
node has a non-empty `childNodes` list — attaches a `children` array holding
the recursive results of the children at depth `+ 1` (dropped children
simply do not appear).  Text nodes are trimmed and dropped when empty;
comments keep their raw text; other node kinds yield `null`. -/
def traverse (maxD depth : Nat) (dom : Dom) : Option Node :=
  if depth ≥ maxD then none
  else
    match dom with
    | .element tagName attrs childNodes =>
      let r := processElement tagName attrs
      if childNodes.length > 0 then
        some (.element r.1 r.2 (some (traverseList maxD (depth + 1) childNodes)))
      else
        some (.element r.1 r.2 none)
    | .text s =>
      let t := jsTrim s
      if t = "" then none else some (.text t)
    | .comment s => some (.comment s)
    | .other _ => none

/-- The `for (const child of node.childNodes)` loop: `null` results are not
pushed. -/
def traverseList (maxD depth : Nat) : List Dom → List Node
  | [] => []
  | d :: ds =>
    match traverse maxD depth d with
    | some n => n :: traverseList maxD depth ds
    | none => traverseList maxD depth ds

end

end DomTraverser

/-! ## The external DOM parse

Modelled from the spec: the repository does not parse raw HTML itself — it
hands the string to an external engine (DOMParser/jsdom) and consumes the
resulting DOM-like tree.  The spec fixes the boundary contract (a node
exposes a discriminant, tag name, ordered attributes, child list, text
payload; pre/textarea content is not special-cased), so the parse is
modelled as a standard recursive-descent tree build over the well-formed
fragment the Formatter emits: tags, double-quoted attributes, character
entities in text and attribute values, and `<!-- -->` comments whose raw
payload is everything between the delimiters. -/

namespace HtmlParse

/-- Decoding of the character entities the renderer can produce (plus
`&apos;`); any other `&` is left alone, as a lenient DOM parse does. -/
def unescape : List Char → List Char
  | [] => []
  | c :: rest =>
    if c = '&' then
      if rest.take 4 = ['a', 'm', 'p', ';'] then '&' :: unescape (rest.drop 4)
      else if rest.take 3 = ['l', 't', ';'] then '<' :: unescape (rest.drop 3)
      else if rest.take 3 = ['g', 't', ';'] then '>' :: unescape (rest.drop 3)
      else if rest.take 5 = ['q', 'u', 'o', 't', ';'] then '"' :: unescape (rest.drop 5)
      else if rest.take 5 = ['a', 'p', 'o', 's', ';'] then '\'' :: unescape (rest.drop 5)
      else if rest.take 5 = ['#', '0', '3', '9', ';'] then '\'' :: unescape (rest.drop 5)
      else '&' :: unescape rest
    else c :: unescape rest
termination_by cs => cs.length
decreasing_by
  all_goals simp only [List.length_cons, List.length_drop]
  all_goals omega

/-- Characters legal in a tag name for this fragment. -/
def isTagNameChar (c : Char) : Bool :=
  ('a' ≤ c && c ≤ 'z') || ('0' ≤ c && c ≤ '9')

/-- An attribute name extends until `=`, whitespace, `>`, `/` or a quote. -/
def isAttrNameChar (c : Char) : Bool :=
  !(c = '=' || c = ' ' || c = '\t' || c = '\n' || c = '\r' || c = '>' ||
    c = '/' || c = '"')

def isSpaceChar (c : Char) : Bool :=
  c = ' ' || c = '\t' || c = '\n' || c = '\r'

/-- Split a comment body at the first `-->`. -/
def commentSplit : List Char → Option (List Char × List Char)
  | [] => none
  | '-' :: '-' :: '>' :: rest => some ([], rest)
  | c :: rest =>
    match commentSplit rest with
    | some (content, r) => some (c :: content, r)
    | none => none

/-- Attribute list: skip whitespace; stop before `>` or `/`; read a name;
`="value"` supplies an entity-decoded double-quoted value, a bare name the
empty string. -/
def parseAttrs : Nat → List Char → Option (List (String × String) × List Char)
  | 0, _ => none
  | fuel + 1, cs =>
    match cs.dropWhile isSpaceChar with
    | [] => none
    | c :: rest =>
      if c = '>' || c = '/' then some ([], c :: rest)
      else
        let name := (c :: rest).takeWhile isAttrNameChar
        if name.isEmpty then none
        else
          match (c :: rest).dropWhile isAttrNameChar with
          | '=' :: '"' :: rest2 =>
            let v := rest2.takeWhile (fun x => x ≠ '"')
            match rest2.dropWhile (fun x => x ≠ '"') with
            | '"' :: rest3 =>
              match parseAttrs fuel rest3 with
              | some (attrs, r) =>
                some ((String.mk name, String.mk (unescape v)) :: attrs, r)
              | none => none
            | _ => none
          | rest1 =>
            match parseAttrs fuel rest1 with
            | some (attrs, r) => some ((String.mk name, "") :: attrs, r)
            | none => none

/-- One pass of the tree build: text runs extend to the next `<`; `</`
returns to the enclosing element; `<!--` opens a comment; any other `<`
opens an element, whose children are parsed recursively and which must be
terminated by its matching close tag.  `<tag ... />` yields a childless
element. -/
def parseNodes : Nat → List Char → Option (List Dom × List Char)
  | 0, _ => none
  | _ + 1, [] => some ([], [])
  | fuel + 1, c :: rest =>
    if c = '<' then
      if rest.take 1 = ['/'] then some ([], c :: rest)
      else if rest.take 3 = ['!', '-', '-'] then
        match commentSplit (rest.drop 3) with
        | some (content, r) =>
          match parseNodes fuel r with
          | some (ns, r') => some (.comment (String.mk content) :: ns, r')
          | none => none
        | none => none
      else
        let tag := rest.takeWhile isTagNameChar
        if tag.isEmpty then none
        else
          match parseAttrs ((rest.dropWhile isTagNameChar).length + 1)
              (rest.dropWhile isTagNameChar) with
          | none => none
          | some (attrs, rest2) =>
            match rest2 with
            | '/' :: '>' :: rest3 =>
              match parseNodes fuel rest3 with
              | some (ns, r) => some (.element (String.mk tag) attrs [] :: ns, r)
              | none => none
            | '>' :: rest3 =>
              match parseNodes fuel rest3 with
              | none => none
              | some (children, rest4) =>
                match rest4 with
                | '<' :: '/' :: rest5 =>
                  if rest5.take tag.length = tag then
                    match rest5.drop tag.length with
                    | '>' :: rest6 =>
                      match parseNodes fuel rest6 with
                      | some (ns, r) =>
                        some (.element (String.mk tag) attrs children :: ns, r)
                      | none => none
                    | _ => none
                  else none
                | _ => none
            | _ => none
    else
      let run := (c :: rest).takeWhile (fun x => x ≠ '<')
      match parseNodes fuel ((c :: rest).dropWhile (fun x => x ≠ '<')) with
      | some (ns, r) => some (.text (String.mk (unescape run)) :: ns, r)
      | none => none

/-- The whole input must be consumed. -/
def parseHTML (cs : List Char) : Option (List Dom) :=
  match parseNodes (cs.length + 1) cs with
  | some (ns, []) => some ns
  | _ => none

end HtmlParse

/-! ## Round-trip infrastructure (not source code: used only to state and
prove the round-trip claim). -/

namespace RoundTrip

/-- A tag that survives the pipeline: non-empty, lowercase-alphanumeric. -/
def tagOK (s : String) : Bool :=
  s ≠ "" && s.data.all HtmlParse.isTagNameChar

/-- A character legal in a round-trippable attribute name. -/
def attrChar (c : Char) : Bool :=
  ('a' ≤ c && c ≤ 'z') || ('0' ≤ c && c ≤ '9') || c = '-' || c = '_'

/-- An attribute name that survives the pipeline. -/
def attrNameOK (s : String) : Bool :=
  s ≠ "" && s.data.all attrChar

def isTextNode : Node → Bool
  | .text _ => true
  | _ => false

mutual

/-- Normal form for the round-trip: the shape extraction itself produces,
minus the cases the counterexample rules out — no comments, text trimmed and
non-empty, no two adjacent text siblings, no self-closing tags, no
`children: []` (extraction emits either no `children` key or a non-empty
array on a fully extracted tree), valid unique attribute names. -/
def nfNode : Node → Bool
  | .text s => s ≠ "" && jsTrim s = s
  | .comment _ => false
  | .element tag attrs children =>
    tagOK tag && !Formatter.isSelfClosingTag tag &&
    attrs.all (fun kv => attrNameOK kv.1) &&
    decide ((attrs.map Prod.fst).Nodup) &&
    (match children with
     | none => true
     | some [] => false
     | some l => nfList l)

def nfList : List Node → Bool
  | [] => true
  | [n] => nfNode n
  | a :: b :: rest =>
    nfNode a && !(isTextNode a && isTextNode b) && nfList (b :: rest)

end

mutual

/-- Descent depth of the deepest node of a node-model tree relative to its
root: leaves and childless elements have height 0, and an element's height
is one more than the deepest of its children. -/
def heightNode : Node → Nat
  | .element _ _ (some l) => heightList l
  | _ => 0

def heightList : List Node → Nat
  | [] => 0
  | n :: ns => max (heightNode n + 1) (heightList ns)

end

mutual

/-- The DOM tree an exact parse of the rendering produces: same shape, with
a missing `children` key parsed as an empty `childNodes` list. -/
def toDom : Node → Dom
  | .element tag attrs children =>
    .element tag attrs
      (match children with
       | none => []
       | some l => toDomList l)
  | .text s => .text s
  | .comment s => .comment s

def toDomList : List Node → List Dom
  | [] => []
  | n :: ns => toDom n :: toDomList ns

end

/-- The rendering of a `children` field: a missing key reads as no output,
mirroring the `node.children || []` fallback inside `nodeToHTML`. -/
def childRender : Option (List Node) → List Char
  | none => []
  | some l => Formatter.nodesToHTML l

/-- Extraction of a single-rooted parse result, as `parseDocument` applies
`traverse` to the one root element. -/
def extractRoot (maxD : Nat) : Option (List Dom) → Option Node
  | some [d] => DomTraverser.traverse maxD 0 d
  | _ => none

end RoundTrip

/-! ## Cache operation sequences (used to state the capacity invariant). -/

/-- One public CacheManager operation. -/
inductive CacheOp (α : Type) where
  | opGet (key : String) (now : Nat)
  | opSet (key : String) (data : α) (ttl : Option Int) (now : Nat)
  | opHas (key : String) (now : Nat)
  | opDelete (key : String)
  | opClear
  | opCleanup (now : Nat)
deriving Repr

namespace CacheManager

def applyOp {α : Type} (st : CacheState α) : CacheOp α → CacheState α
  | .opGet k now => (get st k now).2
  | .opSet k d ttl now => set st k d ttl now
  | .opHas k now => (hasKey st k now).2
  | .opDelete k => (deleteKey st k).2
  | .opClear => clear st
  | .opCleanup now => (cleanup st now).2

def runOps {α : Type} (st : CacheState α) : List (CacheOp α) → CacheState α
  | [] => st
  | op :: rest => runOps (applyOp st op) rest

/-- Only `set` introduces keys; a sequence is key-clean when every inserted
key is a non-empty string. -/
def opKeyOK {α : Type} : CacheOp α → Bool
  | .opSet k _ _ _ => k ≠ ""
  | _ => true

end CacheManager

/-! # Theorems -/

/-! ## C9: the `br` rendering scenario -/

/-- Claim C9: formatting `type:"element", tag:"br", attributes: empty,
children: empty array` as html yields exactly `<br />` (`br` is in the fixed
self-closing set), and as xml also `<br />` with no children block. -/
theorem br_renders_self_closing :
    Formatter.nodeToHTML (.element "br" [] (some [])) = "<br />".data ∧
    Formatter.nodeToXML 0 (.element "br" [] (some [])) = "<br />" :=
  ⟨rfl, rfl⟩

/-! ## C3: invalid parse input -/

/-- Claim C3 (amended): for every input that is not a string or is empty,
`IceblueHtmlParser.parse` fails fast with `success: false`, error message
`Invalid HTML input`, no data, and `errorCode = PARSE_FAILED` (not
`INVALID_INPUT`/`INVALID_HTML` as the spec claims). -/
theorem parse_rejects_invalid_input {δ : Type} :
    ∀ (rest : String → Except String δ) (html : JSValue),
      ((∀ s, html ≠ .str s) ∨ html = .str "") →
      IceblueHtmlParser.parseTop rest html =
        .err "Invalid HTML input" "PARSE_FAILED" := by
  intro rest html h
  cases html with
  | str s =>
    have hs : s = "" := by
      rcases h with h | h
      · exact absurd rfl (h s)
      · cases h; rfl
    subst hs
    rfl
  | null => rfl
  | undefined => rfl
  | bool b => rfl
  | num n => rfl
  | arr l => rfl
  | obj f => rfl

/-- Claim C3's counterexample: at the empty-string input the error code the
code returns is `PARSE_FAILED`, which is neither `INVALID_INPUT` nor
`INVALID_HTML`. -/
theorem parse_invalid_input_code_counterexample :
    IceblueHtmlParser.parseTop (fun _ => (Except.error "" : Except String Unit))
        (.str "") = .err "Invalid HTML input" "PARSE_FAILED" ∧
    "PARSE_FAILED" ≠ "INVALID_INPUT" ∧ "PARSE_FAILED" ≠ "INVALID_HTML" :=
  ⟨rfl, by decide, by decide⟩

/-- Witness for `parse_rejects_invalid_input` at a non-string input. -/
theorem parse_rejects_invalid_input_witness :
    IceblueHtmlParser.parseTop (fun _ => (Except.error "" : Except String Unit))
        (.num 5) = .err "Invalid HTML input" "PARSE_FAILED" :=
  parse_rejects_invalid_input (fun _ => (Except.error "" : Except String Unit))
    (.num 5) (Or.inl (fun _ h => JSValue.noConfusion h))

/-! ## C8: format dispatch -/

/-- Claim C8 (amended): a format name outside the four known ones
(case-insensitively) makes `format` throw `Unsupported format: <name>`, and
the caller `parseAndFormat` propagates that error unchanged rather than
surfacing any `UNSUPPORTED_FORMAT` error code (no such code exists in the
repository); each of the four known names returns a string without
throwing. -/
theorem format_dispatch_semantics :
    (∀ (data : DocumentData) (fmt : String) (opts : Formatter.FormatOptions),
      jsToLower fmt ∉ (["json", "text", "html", "xml"] : List String) →
      IceblueHtmlParser.format data fmt opts =
          .error ("Unsupported format: " ++ fmt) ∧
      IceblueParser.parseAndFormat (.ok data) fmt opts =
          .error ("Unsupported format: " ++ fmt)) ∧
    (∀ (data : DocumentData) (fmt : String) (opts : Formatter.FormatOptions),
      jsToLower fmt ∈ (["json", "text", "html", "xml"] : List String) →
      ∃ s, IceblueHtmlParser.format data fmt opts = .ok s) := by
  constructor
  · intro data fmt opts h
    simp only [List.mem_cons, List.not_mem_nil, or_false, not_or] at h
    obtain ⟨h1, h2, h3, h4⟩ := h
    have : IceblueHtmlParser.format data fmt opts =
        .error ("Unsupported format: " ++ fmt) := by
      unfold IceblueHtmlParser.format
      simp only [h1, h2, h3, h4, if_false]
    exact ⟨this, this⟩
  · intro data fmt opts h
    simp only [List.mem_cons, List.not_mem_nil, or_false] at h
    unfold IceblueHtmlParser.format
    rcases h with h | h | h | h <;> simp [h]

/-- Claim C8's counterexample: the format error reaches `parseAndFormat`'s
caller as the raw thrown error; `UNSUPPORTED_FORMAT` is not among the
repository's error codes. -/
theorem format_unsupported_code_counterexample :
    IceblueParser.parseAndFormat (.ok ⟨none, none⟩) "yaml" ⟨none, false, false⟩ =
        .error "Unsupported format: yaml" ∧
    "UNSUPPORTED_FORMAT" ∉ ERROR_CODES :=
  ⟨rfl, by decide⟩

/-- Witness for `format_dispatch_semantics` at `yaml` and `JSON`. -/
theorem format_dispatch_semantics_witness :
    IceblueHtmlParser.format ⟨none, none⟩ "yml" ⟨none, false, false⟩ =
        .error "Unsupported format: yml" ∧
    ∃ s, IceblueHtmlParser.format ⟨none, none⟩ "JSON" ⟨none, false, false⟩ = .ok s :=
  ⟨(format_dispatch_semantics.1 ⟨none, none⟩ "yml" ⟨none, false, false⟩
      (by decide)).1,
   format_dispatch_semantics.2 ⟨none, none⟩ "JSON" ⟨none, false, false⟩ (by decide)⟩

/-! ## C5: strict mode and the Validator -/

theorem validateStructure_errors_strict (s1 s2 : Bool) (M T : Nat) (x : JSValue) :
    (Validator.validateStructure s1 M T x).errors =
    (Validator.validateStructure s2 M T x).errors := by
  unfold Validator.validateStructure
  split_ifs <;> rfl

theorem validateStructure_warnings_strict (M T : Nat) (x : JSValue) :
    (Validator.validateStructure false M T x).warnings.Sublist
    (Validator.validateStructure true M T x).warnings := by
  unfold Validator.validateStructure
  split_ifs <;> simp_all

theorem validateData_errors_strict (s1 s2 : Bool) (M T : Nat) (data : JSValue) :
    (Validator.validateData s1 M T data).errors =
    (Validator.validateData s2 M T data).errors := by
  by_cases h : truthy (getField data "structure") = true
  · simp only [Validator.validateData, h, if_true]
    rw [validateStructure_errors_strict s1 s2]
  · simp [Validator.validateData, h]

theorem validateData_warnings_strict (M T : Nat) (data : JSValue) :
    (Validator.validateData false M T data).warnings.Sublist
    (Validator.validateData true M T data).warnings := by
  by_cases h : truthy (getField data "structure") = true
  · simp only [Validator.validateData, h, if_true]
    exact ((((List.Sublist.refl _).append
      (validateStructure_warnings_strict M T _)).append
        (List.Sublist.refl _)).append (List.Sublist.refl _)).append
          (List.Sublist.refl _)
  · simp [Validator.validateData, h]

/-- Claim C5 (amended): the `strict` constructor option changes none of the
errors `validate` reports (nor `valid`); its only effect inside the
Validator is the extra `Structure missing root node` warning, so the
non-strict warnings are always a sublist of the strict ones.  `strict` is
otherwise consumed by the Backend Parser to downgrade success. -/
theorem validator_strict_reports :
    (∀ (s1 s2 : Bool) (M T : Nat) (result : JSValue),
      (Validator.validate ⟨s1, M, T⟩ result).errors =
      (Validator.validate ⟨s2, M, T⟩ result).errors) ∧
    (∀ (M T : Nat) (result : JSValue),
      (Validator.validate ⟨false, M, T⟩ result).warnings.Sublist
      (Validator.validate ⟨true, M, T⟩ result).warnings) ∧
    (∀ (s1 s2 : Bool) (M T : Nat) (result : JSValue),
      (Validator.validate ⟨s1, M, T⟩ result).valid =
      (Validator.validate ⟨s2, M, T⟩ result).valid) := by
  have herr : ∀ (s1 s2 : Bool) (M T : Nat) (result : JSValue),
      (Validator.validate ⟨s1, M, T⟩ result).errors =
      (Validator.validate ⟨s2, M, T⟩ result).errors := by
    intro s1 s2 M T result
    by_cases h0 : truthy result = true
    · by_cases h1 : (truthy (getField result "success") &&
          truthy (getField result "data")) = true
      · simp only [Validator.validate, h0, h1, Bool.not_true, if_true, if_false,
          Bool.false_eq_true]
        rw [validateData_errors_strict s1 s2]
      · simp [Validator.validate, h0, h1]
    · simp [Validator.validate, h0]
  refine ⟨herr, ?_, ?_⟩
  · intro M T result
    by_cases h0 : truthy result = true
    · by_cases h1 : (truthy (getField result "success") &&
          truthy (getField result "data")) = true
      · simp only [Validator.validate, h0, h1, Bool.not_true, if_true, if_false,
          Bool.false_eq_true]
        exact (validateData_warnings_strict M T _).append (List.Sublist.refl _)
      · simp [Validator.validate, h0, h1]
    · simp [Validator.validate, h0]
  · intro s1 s2 M T result
    by_cases h0 : truthy result = true
    · by_cases h1 : (truthy (getField result "success") &&
          truthy (getField result "data")) = true
      · simp only [Validator.validate, h0, h1, Bool.not_true, if_true, if_false,
          Bool.false_eq_true]
        rw [validateData_errors_strict s1 s2]
      · simp [Validator.validate, h0, h1]
    · simp [Validator.validate, h0]

/-- Claim C5's counterexample: with a present `structure` lacking a `root`,
strict mode adds a warning that non-strict mode does not report, so the two
runs do not produce identical reports. -/
theorem validator_strict_warning_counterexample :
    Validator.validate ⟨true, 100, 10000⟩
        (.obj [("success", .bool true), ("data", .obj [("structure", .obj [])])]) ≠
    Validator.validate ⟨false, 100, 10000⟩
        (.obj [("success", .bool true), ("data", .obj [("structure", .obj [])])]) := by
  decide

/-! ## Cache map helper lemmas -/

namespace CacheManager

theorem mapGet_mapSet_self {α : Type} (m : List (String × CacheItem α))
    (k : String) (v : CacheItem α) : mapGet (mapSet m k v) k = some v := by
  induction m with
  | nil => simp [mapSet, mapGet]
  | cons e rest ih =>
    obtain ⟨k', v'⟩ := e
    by_cases h : k' = k <;> simp [mapSet, mapGet, h, ih]

theorem evict_enabled {α : Type} (st : CacheState α) (now : Nat) :
    (evict st now).enabled = st.enabled := by
  unfold evict
  split
  · rfl
  · split
    · rfl
    · split
      · split <;> rfl
      · rfl

theorem evict_maxSize {α : Type} (st : CacheState α) (now : Nat) :
    (evict st now).maxSize = st.maxSize := by
  unfold evict
  split
  · rfl
  · split
    · rfl
    · split
      · split <;> rfl
      · rfl

theorem evict_defaultTTL {α : Type} (st : CacheState α) (now : Nat) :
    (evict st now).defaultTTL = st.defaultTTL := by
  unfold evict
  split
  · rfl
  · split
    · rfl
    · split
      · split <;> rfl
      · rfl

/-- Unfolding of `set` in the enabled case. -/
theorem set_eq_of_enabled {α : Type} (st : CacheState α) (key : String) (data : α)
    (ttl : Option Int) (now : Nat) (hen : st.enabled = true) :
    set st key data ttl now =
      { (if st.cache.length ≥ st.maxSize then evict st now else st) with
        cache := mapSet
          (if st.cache.length ≥ st.maxSize then evict st now else st).cache key
          { data := data
            createdAt := now
            lastAccessed := now
            expires :=
              if ((match ttl with | some v => v | none => st.defaultTTL) : Int) > 0 then
                some ((now : Int) +
                  ((match ttl with | some v => v | none => st.defaultTTL) : Int))
              else none } } := by
  unfold set
  rw [hen]
  rfl

end CacheManager

/-! ## C4: TTL-zero and missing-TTL expiry -/

/-- Claim C4 (amended): an entry inserted with an explicit TTL of `0` never
expires — `get` at any later time still returns it; but an entry inserted
with no TTL gets the cache's `defaultTTL` (which the constructor always
makes non-zero, 3600000 by default), so when `defaultTTL` is positive the
entry expires once `now` passes `insertedAt + defaultTTL`. -/
theorem cache_ttl_semantics {α : Type} :
    (∀ (st : CacheState α) (key : String) (data : α) (now later : Nat),
      st.enabled = true →
      (CacheManager.get (CacheManager.set st key data (some 0) now) key later).1 =
        some data) ∧
    (∀ (st : CacheState α) (key : String) (data : α) (now later : Nat),
      st.enabled = true → 0 < st.defaultTTL →
      (now : Int) + st.defaultTTL < (later : Int) →
      (CacheManager.get (CacheManager.set st key data none now) key later).1 =
        none) := by
  constructor
  · intro st key data now later hen
    rw [CacheManager.set_eq_of_enabled st key data (some 0) now hen]
    have hen1 : (if st.cache.length ≥ st.maxSize then CacheManager.evict st now
        else st).enabled = true := by
      split
      · rw [CacheManager.evict_enabled]; exact hen
      · exact hen
    simp [CacheManager.get, hen1, CacheManager.mapGet_mapSet_self,
      CacheManager.expiredAt]
  · intro st key data now later hen hpos hlate
    rw [CacheManager.set_eq_of_enabled st key data none now hen]
    have hen1 : (if st.cache.length ≥ st.maxSize then CacheManager.evict st now
        else st).enabled = true := by
      split
      · rw [CacheManager.evict_enabled]; exact hen
      · exact hen
    have hd : (if st.cache.length ≥ st.maxSize then CacheManager.evict st now
        else st).defaultTTL = st.defaultTTL := by
      split
      · rw [CacheManager.evict_defaultTTL]
      · rfl
    simp only [CacheManager.get, hen1, Bool.not_true, Bool.false_eq_true,
      if_false, hd, CacheManager.mapGet_mapSet_self]
    have hexp : CacheManager.expiredAt
        (if st.defaultTTL > 0 then some ((now : Int) + st.defaultTTL) else none)
        later = true := by
      rw [if_pos hpos]
      simp only [CacheManager.expiredAt, Bool.and_eq_true, bne_iff_ne, ne_eq,
        decide_eq_true_eq]
      constructor
      · omega
      · omega
    rw [hexp]
    simp

/-- Claim C4's counterexample: in a default cache an entry inserted with no
TTL at time 0 misses (and the claim's `still returns the stored value`
fails) at time 3600001. -/
theorem cache_no_ttl_expires_counterexample :
    (CacheManager.get
        (CacheManager.set (CacheManager.mk Nat none none none) "k" 7 none 0)
        "k" 3600001).1 = none := by
  decide

/-- Witness for `cache_ttl_semantics` on a default cache. -/
theorem cache_ttl_semantics_witness :
    (CacheManager.get
        (CacheManager.set (CacheManager.mk Nat none none none) "k" 7 (some 0) 0)
        "k" 999999999).1 = some 7 ∧
    (CacheManager.get
        (CacheManager.set (CacheManager.mk Nat none none none) "k" 7 none 5)
        "k" 3700000).1 = none :=
  ⟨cache_ttl_semantics.1 (CacheManager.mk Nat none none none) "k" 7 0 999999999 rfl,
   cache_ttl_semantics.2 (CacheManager.mk Nat none none none) "k" 7 5 3700000 rfl
     (by decide) (by decide)⟩

/-! ## C10: `has` and the `enabled` flag -/

/-- Claim C10: `has` never consults `enabled` — on any state (disabled
included) it reports a stored unexpired entry as present without touching
the state, deletes an expired entry as a side effect, and its result is
oblivious to the `enabled` flag; `get` and `set`, by contrast, degenerate
to a miss and a no-op on a disabled cache. -/
theorem cache_has_ignores_enabled {α : Type} :
    (∀ (st : CacheState α) (key : String) (now : Nat) (item : CacheItem α),
      CacheManager.mapGet st.cache key = some item →
      CacheManager.expiredAt item.expires now = false →
      CacheManager.hasKey st key now = (true, st)) ∧
    (∀ (st : CacheState α) (key : String) (now : Nat) (item : CacheItem α),
      CacheManager.mapGet st.cache key = some item →
      CacheManager.expiredAt item.expires now = true →
      CacheManager.hasKey st key now =
        (false, { st with cache := CacheManager.mapDelete st.cache key })) ∧
    (∀ (st : CacheState α) (key : String) (now : Nat) (b : Bool),
      CacheManager.hasKey { st with enabled := b } key now =
        ((CacheManager.hasKey st key now).1,
         { (CacheManager.hasKey st key now).2 with enabled := b })) ∧
    (∀ (st : CacheState α) (key : String) (now : Nat),
      st.enabled = false → CacheManager.get st key now = (none, st)) ∧
    (∀ (st : CacheState α) (key : String) (data : α) (ttl : Option Int) (now : Nat),
      st.enabled = false → CacheManager.set st key data ttl now = st) := by
  refine ⟨?_, ?_, ?_, ?_, ?_⟩
  · intro st key now item hget hexp
    simp [CacheManager.hasKey, hget, hexp]
  · intro st key now item hget hexp
    simp [CacheManager.hasKey, hget, hexp]
  · intro st key now b
    unfold CacheManager.hasKey
    cases hget : CacheManager.mapGet st.cache key with
    | none => simp
    | some item =>
      by_cases hexp : CacheManager.expiredAt item.expires now = true
      · simp [hexp]
      · simp [hexp]
  · intro st key now hdis
    simp [CacheManager.get, hdis]
  · intro st key data ttl now hdis
    simp [CacheManager.set, hdis]

/-- Witness for `cache_has_ignores_enabled` on a disabled cache holding one
live and one expired entry. -/
theorem cache_has_ignores_enabled_witness :
    CacheManager.hasKey
        (⟨[("live", ⟨7, 0, 0, none⟩)], 100, 3600000, false⟩ : CacheState Nat)
        "live" 50 =
      (true, ⟨[("live", ⟨7, 0, 0, none⟩)], 100, 3600000, false⟩) ∧
    CacheManager.hasKey
        (⟨[("old", ⟨8, 0, 0, some 10⟩)], 100, 3600000, false⟩ : CacheState Nat)
        "old" 50 =
      (false, ⟨[], 100, 3600000, false⟩) ∧
    CacheManager.get
        (⟨[("live", ⟨7, 0, 0, none⟩)], 100, 3600000, false⟩ : CacheState Nat)
        "live" 50 =
      (none, ⟨[("live", ⟨7, 0, 0, none⟩)], 100, 3600000, false⟩) := by
  refine ⟨?_, ?_, ?_⟩
  · exact cache_has_ignores_enabled.1 _ "live" 50 ⟨7, 0, 0, none⟩ rfl rfl
  · exact cache_has_ignores_enabled.2.1 _ "old" 50 ⟨8, 0, 0, some 10⟩ rfl (by decide)
  · exact cache_has_ignores_enabled.2.2.2.1 _ "live" 50 rfl

/-! ## C6: the LRU eviction scenario -/

theorem expiredAt_stale_false {v : Int} {now : Nat} (h : (now : Int) ≤ v) :
    CacheManager.expiredAt (some v) now = false := by
  simp [CacheManager.expiredAt]
  omega

/-- Claim C6: with `maxSize = 2` and timestamps close enough that nothing
expires, inserting `A`, inserting `B`, reading `A`, then inserting `C`
evicts exactly `B` — the entry with the oldest `lastAccessed` — leaving `A`
and `C` stored. -/
theorem cache_lru_evicts_least_recently_used (a b c : Nat) (t0 t1 t2 t3 : Nat)
    (h12 : t1 < t2)
    (h2A : (t2 : Int) ≤ (t0 : Int) + 3600000)
    (h3A : (t3 : Int) ≤ (t0 : Int) + 3600000)
    (h3B : (t3 : Int) ≤ (t1 : Int) + 3600000) :
    (CacheManager.set
        (CacheManager.get
          (CacheManager.set
            (CacheManager.set (CacheManager.mk Nat (some 2) none none)
              "A" a none t0)
            "B" b none t1)
          "A" t2).2
        "C" c none t3).cache.map Prod.fst = ["A", "C"] := by
  have e1 : CacheManager.set (CacheManager.mk Nat (some 2) none none) "A" a none t0 =
      ⟨[("A", ⟨a, t0, t0, some ((t0 : Int) + 3600000)⟩)], 2, 3600000, true⟩ := rfl
  have e2 : CacheManager.set
      (⟨[("A", ⟨a, t0, t0, some ((t0 : Int) + 3600000)⟩)], 2, 3600000, true⟩ :
        CacheState Nat) "B" b none t1 =
      ⟨[("A", ⟨a, t0, t0, some ((t0 : Int) + 3600000)⟩),
        ("B", ⟨b, t1, t1, some ((t1 : Int) + 3600000)⟩)], 2, 3600000, true⟩ := rfl
  have e3 : CacheManager.get
      (⟨[("A", ⟨a, t0, t0, some ((t0 : Int) + 3600000)⟩),
         ("B", ⟨b, t1, t1, some ((t1 : Int) + 3600000)⟩)], 2, 3600000, true⟩ :
        CacheState Nat) "A" t2 =
      (some a,
       ⟨[("A", ⟨a, t0, t2, some ((t0 : Int) + 3600000)⟩),
         ("B", ⟨b, t1, t1, some ((t1 : Int) + 3600000)⟩)], 2, 3600000, true⟩) := by
    simp [CacheManager.get, CacheManager.mapGet, CacheManager.mapSet,
      expiredAt_stale_false h2A]
  have e4 : CacheManager.set
      (⟨[("A", ⟨a, t0, t2, some ((t0 : Int) + 3600000)⟩),
         ("B", ⟨b, t1, t1, some ((t1 : Int) + 3600000)⟩)], 2, 3600000, true⟩ :
        CacheState Nat) "C" c none t3 =
      ⟨[("A", ⟨a, t0, t2, some ((t0 : Int) + 3600000)⟩),
        ("C", ⟨c, t3, t3, some ((t3 : Int) + 3600000)⟩)], 2, 3600000, true⟩ := by
    simp [CacheManager.set, CacheManager.evict, CacheManager.findExpired,
      CacheManager.leastUsed, CacheManager.leastUsedAux, CacheManager.mapDelete,
      CacheManager.mapSet, expiredAt_stale_false h3A, expiredAt_stale_false h3B,
      h12]
  rw [e1, e2, e3, e4]
  rfl

/-- Witness for `cache_lru_evicts_least_recently_used` at times 0, 1, 2, 3. -/
theorem cache_lru_witness :
    (CacheManager.set
        (CacheManager.get
          (CacheManager.set
            (CacheManager.set (CacheManager.mk Nat (some 2) none none)
              "A" 1 none 0)
            "B" 2 none 1)
          "A" 2).2
        "C" 3 none 3).cache.map Prod.fst = ["A", "C"] :=
  cache_lru_evicts_least_recently_used 1 2 3 0 1 2 3 (by decide) (by decide)
    (by decide) (by decide)

/-! ## C7: the capacity invariant -/

namespace CacheManager

theorem mem_keys_iff_mapGet_isSome {α : Type} (m : List (String × CacheItem α))
    (k : String) : k ∈ m.map Prod.fst ↔ (mapGet m k).isSome = true := by
  induction m with
  | nil => simp [mapGet]
  | cons e rest ih =>
    obtain ⟨k', v'⟩ := e
    by_cases h : k' = k
    · subst h; simp [mapGet]
    · simp [mapGet, h, ih, Ne.symm h]

theorem length_mapSet {α : Type} (m : List (String × CacheItem α)) (k : String)
    (v : CacheItem α) :
    (mapSet m k v).length =
      if k ∈ m.map Prod.fst then m.length else m.length + 1 := by
  induction m with
  | nil => simp [mapSet]
  | cons e rest ih =>
    obtain ⟨k', v'⟩ := e
    by_cases h : k' = k
    · subst h; simp [mapSet]
    · simp only [mapSet, if_neg h, List.length_cons, List.map_cons,
        List.mem_cons, ih]
      by_cases hm : k ∈ rest.map Prod.fst
      · simp [hm]
      · simp [hm, Ne.symm h]

theorem keys_mapSet_subset {α : Type} (m : List (String × CacheItem α))
    (k : String) (v : CacheItem α) :
    ∀ x ∈ (mapSet m k v).map Prod.fst, x ∈ m.map Prod.fst ∨ x = k := by
  induction m with
  | nil => simp [mapSet]
  | cons e rest ih =>
    obtain ⟨k', v'⟩ := e
    by_cases h : k' = k
    · subst h; simp [mapSet]; tauto
    · intro x hx
      simp only [mapSet, if_neg h, List.map_cons, List.mem_cons] at hx
      rcases hx with hx | hx
      · simp [hx]
      · rcases ih x hx with h' | h'
        · simp [h']
        · tauto

theorem length_mapDelete_of_mem {α : Type} (m : List (String × CacheItem α))
    (k : String) (h : k ∈ m.map Prod.fst) :
    (mapDelete m k).length + 1 = m.length := by
  induction m with
  | nil => simp at h
  | cons e rest ih =>
    obtain ⟨k', v'⟩ := e
    by_cases hk : k' = k
    · subst hk; simp [mapDelete]
    · simp only [List.map_cons, List.mem_cons] at h
      rcases h with h | h
      · exact absurd h.symm hk
      · simp [mapDelete, hk, ih h]

theorem length_mapDelete_le {α : Type} (m : List (String × CacheItem α))
    (k : String) : (mapDelete m k).length ≤ m.length := by
  induction m with
  | nil => simp [mapDelete]
  | cons e rest ih =>
    obtain ⟨k', v'⟩ := e
    by_cases hk : k' = k
    · simp only [mapDelete, if_pos hk, List.length_cons]
      omega
    · simp only [mapDelete, if_neg hk, List.length_cons]
      omega

theorem keys_mapDelete_subset {α : Type} (m : List (String × CacheItem α))
    (k : String) :
    ∀ x ∈ (mapDelete m k).map Prod.fst, x ∈ m.map Prod.fst := by
  induction m with
  | nil => simp [mapDelete]
  | cons e rest ih =>
    obtain ⟨k', v'⟩ := e
    by_cases hk : k' = k
    · subst hk; simp [mapDelete]; tauto
    · intro x hx
      simp only [mapDelete, if_neg hk, List.map_cons, List.mem_cons] at hx
      rcases hx with hx | hx
      · simp [hx]
      · simp [ih x hx]

theorem findExpired_mem {α : Type} (m : List (String × CacheItem α)) (now : Nat)
    (k : String) (h : findExpired m now = some k) : k ∈ m.map Prod.fst := by
  induction m with
  | nil => simp [findExpired] at h
  | cons e rest ih =>
    obtain ⟨k', v'⟩ := e
    by_cases hexp : expiredAt v'.expires now = true
    · simp only [findExpired, hexp, if_true, Option.some.injEq] at h
      simp [h]
    · simp only [findExpired, hexp, Bool.false_eq_true, if_false] at h
      simp [ih h]

theorem leastUsedAux_sound {α : Type} (m : List (String × CacheItem α)) :
    ∀ (acc : Option String) (t : Option Nat) (k : String),
      leastUsedAux m acc t = some k → acc = some k ∨ k ∈ m.map Prod.fst := by
  induction m with
  | nil => intro acc t k h; simp [leastUsedAux] at h; simp [h]
  | cons e rest ih =>
    intro acc t k h
    obtain ⟨k', v'⟩ := e
    cases t with
    | none =>
      simp only [leastUsedAux] at h
      rcases ih (some k') (some v'.lastAccessed) k h with h' | h'
      · simp at h'; simp [h']
      · simp [h']
    | some tv =>
      simp only [leastUsedAux] at h
      by_cases hlt : v'.lastAccessed < tv
      · rw [if_pos hlt] at h
        rcases ih (some k') (some v'.lastAccessed) k h with h' | h'
        · simp at h'; simp [h']
        · simp [h']
      · rw [if_neg hlt] at h
        rcases ih acc (some tv) k h with h' | h'
        · simp [h']
        · simp [h']

theorem leastUsedAux_isSome {α : Type} (m : List (String × CacheItem α)) :
    ∀ (k0 : String) (t : Option Nat), ∃ k, leastUsedAux m (some k0) t = some k := by
  induction m with
  | nil =>
    intro k0 t
    exact ⟨k0, rfl⟩
  | cons e rest ih =>
    intro k0 t
    obtain ⟨k', v'⟩ := e
    cases t with
    | none => exact ih k' (some v'.lastAccessed)
    | some tv =>
      by_cases hlt : v'.lastAccessed < tv
      · simpa [leastUsedAux, hlt] using ih k' (some v'.lastAccessed)
      · simpa [leastUsedAux, hlt] using ih k0 (some tv)

/-- On a non-empty cache whose keys are all non-empty strings, `evict`
removes exactly one entry (even when several are expired), and introduces no
keys. -/
theorem evict_removes_one {α : Type} (st : CacheState α) (now : Nat)
    (hne : st.cache ≠ [])
    (hkeys : ∀ k ∈ st.cache.map Prod.fst, k ≠ "") :
    (evict st now).cache.length + 1 = st.cache.length ∧
    (∀ x ∈ (evict st now).cache.map Prod.fst, x ∈ st.cache.map Prod.fst) := by
  have hlen : ¬ st.cache.length = 0 := by
    simpa [List.length_eq_zero] using hne
  unfold evict
  rw [if_neg hlen]
  cases hfe : findExpired st.cache now with
  | some k =>
    have hmem := findExpired_mem st.cache now k hfe
    exact ⟨length_mapDelete_of_mem _ _ hmem, keys_mapDelete_subset _ _⟩
  | none =>
    obtain ⟨e, rest, hcache⟩ : ∃ e rest, st.cache = e :: rest := by
      cases hc : st.cache with
      | nil => exact absurd hc hne
      | cons e rest => exact ⟨e, rest, rfl⟩
    have hsome : ∃ k, leastUsed st.cache = some k := by
      rw [hcache]
      exact leastUsedAux_isSome rest e.1 (some e.2.lastAccessed)
    obtain ⟨k, hk⟩ := hsome
    have hmem : k ∈ st.cache.map Prod.fst := by
      rcases leastUsedAux_sound st.cache none none k hk with h | h
      · exact absurd h (by simp)
      · exact h
    have hkne : k ≠ "" := hkeys k hmem
    rw [hk]
    simp only [hkne, ne_eq, not_false_eq_true, if_true]
    exact ⟨length_mapDelete_of_mem _ _ hmem, keys_mapDelete_subset _ _⟩

/-- One step of the invariant: every operation keeps `maxSize`, keeps the
key-set free of the empty string when it only inserts non-empty keys, and
keeps the size within `maxSize`. -/
theorem applyOp_invariant {α : Type} (st : CacheState α) (op : CacheOp α)
    (hkey : opKeyOK op = true) (hmax : 1 ≤ st.maxSize)
    (hsize : st.cache.length ≤ st.maxSize)
    (hkeys : ∀ k ∈ st.cache.map Prod.fst, k ≠ "") :
    (applyOp st op).maxSize = st.maxSize ∧
    (applyOp st op).cache.length ≤ st.maxSize ∧
    (∀ k ∈ (applyOp st op).cache.map Prod.fst, k ≠ "") := by
  cases op with
  | opGet key now =>
    by_cases hen : st.enabled = true
    · cases hget : mapGet st.cache key with
      | none =>
        have hst : applyOp st (.opGet key now) = st := by
          simp [applyOp, get, hen, hget]
        rw [hst]
        exact ⟨rfl, hsize, hkeys⟩
      | some item =>
        by_cases hexp : expiredAt item.expires now = true
        · have hst : applyOp st (.opGet key now) =
              { st with cache := mapDelete st.cache key } := by
            simp [applyOp, get, hen, hget, hexp]
          rw [hst]
          exact ⟨rfl, le_trans (length_mapDelete_le _ _) hsize,
            fun k hk => hkeys k (keys_mapDelete_subset _ _ k hk)⟩
        · have hst : applyOp st (.opGet key now) = { st with
              cache := mapSet st.cache key { item with lastAccessed := now } } := by
            simp [applyOp, get, hen, hget, hexp]
          have hmem : key ∈ st.cache.map Prod.fst := by
            rw [mem_keys_iff_mapGet_isSome, hget]
            rfl
          rw [hst]
          refine ⟨rfl, ?_, ?_⟩
          · rw [length_mapSet, if_pos hmem]
            exact hsize
          · intro k hk
            rcases keys_mapSet_subset _ _ _ k hk with h | h
            · exact hkeys k h
            · subst h; exact hkeys _ hmem
    · have hen' : st.enabled = false := by
        simpa using hen
      have hst : applyOp st (.opGet key now) = st := by
        simp [applyOp, get, hen']
      rw [hst]
      exact ⟨rfl, hsize, hkeys⟩
  | opSet key data ttl now =>
    have hkne : key ≠ "" := by simpa [opKeyOK] using hkey
    by_cases hen : st.enabled = true
    · by_cases hcap : st.cache.length ≥ st.maxSize
      · have hne : st.cache ≠ [] := by
          intro h
          rw [h] at hcap
          simp only [List.length_nil, ge_iff_le] at hcap
          omega
        obtain ⟨hlen, hsub⟩ := evict_removes_one st now hne hkeys
        have hkeys' : ∀ k ∈ (evict st now).cache.map Prod.fst, k ≠ "" :=
          fun k hk => hkeys k (hsub k hk)
        obtain ⟨item, hst⟩ : ∃ item, applyOp st (.opSet key data ttl now) =
            { evict st now with cache := mapSet (evict st now).cache key item } :=
          ⟨_, by simp [applyOp, set, hen, hcap]; rfl⟩
        rw [hst]
        refine ⟨evict_maxSize st now, ?_, ?_⟩
        · rw [length_mapSet]
          split
          · omega
          · omega
        · intro k hk
          rcases keys_mapSet_subset _ _ _ k hk with h | h
          · exact hkeys' k h
          · subst h; exact hkne
      · obtain ⟨item, hst⟩ : ∃ item, applyOp st (.opSet key data ttl now) =
            { st with cache := mapSet st.cache key item } :=
          ⟨_, by simp [applyOp, set, hen, hcap]; rfl⟩
        rw [hst]
        refine ⟨rfl, ?_, ?_⟩
        · rw [length_mapSet]
          split
          · exact hsize
          · omega
        · intro k hk
          rcases keys_mapSet_subset _ _ _ k hk with h | h
          · exact hkeys k h
          · subst h; exact hkne
    · have hen' : st.enabled = false := by
        simpa using hen
      have hst : applyOp st (.opSet key data ttl now) = st := by
        simp [applyOp, set, hen']
      rw [hst]
      exact ⟨rfl, hsize, hkeys⟩
  | opHas key now =>
    cases hget : mapGet st.cache key with
    | none =>
      have hst : applyOp st (.opHas key now) = st := by
        simp [applyOp, hasKey, hget]
      rw [hst]
      exact ⟨rfl, hsize, hkeys⟩
    | some item =>
      by_cases hexp : expiredAt item.expires now = true
      · have hst : applyOp st (.opHas key now) =
            { st with cache := mapDelete st.cache key } := by
          simp [applyOp, hasKey, hget, hexp]
        rw [hst]
        exact ⟨rfl, le_trans (length_mapDelete_le _ _) hsize,
          fun k hk => hkeys k (keys_mapDelete_subset _ _ k hk)⟩
      · have hst : applyOp st (.opHas key now) = st := by
          simp [applyOp, hasKey, hget, hexp]
        rw [hst]
        exact ⟨rfl, hsize, hkeys⟩
  | opDelete key =>
    have hst : applyOp st (.opDelete key) =
        { st with cache := mapDelete st.cache key } := by
      simp [applyOp, deleteKey]
    rw [hst]
    exact ⟨rfl, le_trans (length_mapDelete_le _ _) hsize,
      fun k hk => hkeys k (keys_mapDelete_subset _ _ k hk)⟩
  | opClear =>
    have hst : applyOp st .opClear = { st with cache := [] } := by
      simp [applyOp, clear]
    rw [hst]
    exact ⟨rfl, by simp, by simp⟩
  | opCleanup now =>
    have hst : applyOp st (.opCleanup now) =
        { st with cache := st.cache.filter (fun e => !expiredAt e.2.expires now) } := by
      simp [applyOp, cleanup]
    rw [hst]
    refine ⟨rfl, le_trans (List.length_filter_le _ _) hsize, ?_⟩
    intro k hk
    simp only [List.mem_map] at hk
    obtain ⟨e, he, hek⟩ := hk
    exact hkeys k
      (by simpa [hek] using List.mem_map_of_mem Prod.fst (List.mem_of_mem_filter he))

theorem runOps_invariant {α : Type} (ops : List (CacheOp α)) :
    ∀ (st : CacheState α), (∀ op ∈ ops, opKeyOK op = true) →
      1 ≤ st.maxSize → st.cache.length ≤ st.maxSize →
      (∀ k ∈ st.cache.map Prod.fst, k ≠ "") →
      (runOps st ops).maxSize = st.maxSize ∧
      (runOps st ops).cache.length ≤ st.maxSize := by
  induction ops with
  | nil => intro st _ _ h2 _; exact ⟨rfl, h2⟩
  | cons op rest ih =>
    intro st hops h1 h2 h3
    have hop : opKeyOK op = true := hops op (List.mem_cons_self op rest)
    obtain ⟨hm, hs, hk⟩ := applyOp_invariant st op hop h1 h2 h3
    have h1' : 1 ≤ (applyOp st op).maxSize := by rw [hm]; exact h1
    have h2' : (applyOp st op).cache.length ≤ (applyOp st op).maxSize := by
      rw [hm]; exact hs
    have := ih (applyOp st op) (fun o ho => hops o (List.mem_cons_of_mem op ho))
      h1' h2' hk
    rw [hm] at this
    exact ⟨this.1, this.2⟩

end CacheManager

/-- Claim C7 (amended): starting from any freshly constructed cache, a
sequence of operations in which every inserted key is a non-empty string
never leaves more than `maxSize` entries; and on a non-empty cache with
non-empty keys each `set`-triggered `evict` removes exactly one entry even
if several are expired.  (With an empty-string key the final truthiness test
`if (leastUsedKey)` skips the deletion and the bound can be exceeded, which
is what the counterexample exhibits.) -/
theorem cache_capacity_bound {α : Type} :
    (∀ (ops : List (CacheOp α)) (maxSize : Option Nat) (ttl : Option Int)
        (enabled : Option Bool),
      (∀ op ∈ ops, CacheManager.opKeyOK op = true) →
      (CacheManager.runOps (CacheManager.mk α maxSize ttl enabled) ops).cache.length ≤
        (CacheManager.mk α maxSize ttl enabled).maxSize) ∧
    (∀ (st : CacheState α) (now : Nat),
      st.cache ≠ [] → (∀ k ∈ st.cache.map Prod.fst, k ≠ "") →
      (CacheManager.evict st now).cache.length + 1 = st.cache.length) := by
  constructor
  · intro ops maxSize ttl enabled hops
    have hmax : 1 ≤ (CacheManager.mk α maxSize ttl enabled).maxSize := by
      cases maxSize with
      | none => simp [CacheManager.mk, CacheManager.orDefaultNat]
      | some v =>
        by_cases h : v = 0
        · simp [CacheManager.mk, CacheManager.orDefaultNat, h]
        · simp only [CacheManager.mk, CacheManager.orDefaultNat, if_neg h]
          omega
    exact (CacheManager.runOps_invariant ops (CacheManager.mk α maxSize ttl enabled)
      hops hmax (by simp [CacheManager.mk]) (by simp [CacheManager.mk])).2
  · intro st now hne hkeys
    exact (CacheManager.evict_removes_one st now hne hkeys).1

/-- Claim C7's counterexample: with `maxSize = 1`, inserting under the empty
string key and then a second key leaves two entries — the LRU deletion is
skipped because the empty-string key is falsy. -/
theorem cache_capacity_counterexample :
    (CacheManager.set
        (CacheManager.set (CacheManager.mk Nat (some 1) none none) "" 1 none 0)
        "b" 2 none 1).cache.length = 2 ∧
    (CacheManager.mk Nat (some 1) none none).maxSize = 1 := by
  decide

/-- Witness for `cache_capacity_bound` on a two-insert sequence at capacity
one. -/
theorem cache_capacity_bound_witness :
    (CacheManager.runOps (CacheManager.mk Nat (some 1) none none)
        [.opSet "a" 1 none 0, .opSet "b" 2 none 1]).cache.length ≤
      (CacheManager.mk Nat (some 1) none none).maxSize ∧
    (CacheManager.evict
        (⟨[("a", ⟨1, 0, 0, some 5⟩), ("b", ⟨2, 0, 0, some 5⟩)], 2, 3600000, true⟩ :
          CacheState Nat) 100).cache.length + 1 = 2 :=
  ⟨(cache_capacity_bound).1 [.opSet "a" 1 none 0, .opSet "b" 2 none 1]
      (some 1) none none (by decide),
   (cache_capacity_bound).2
      (⟨[("a", ⟨1, 0, 0, some 5⟩), ("b", ⟨2, 0, 0, some 5⟩)], 2, 3600000, true⟩ :
        CacheState Nat) 100 (by decide) (by decide)⟩

/-! ## C1: the depth bound and the cut-off marker -/

theorem heightList_le_of_forall (l : List Node) (k : Nat)
    (h : ∀ x ∈ l, RoundTrip.heightNode x < k) : RoundTrip.heightList l ≤ k := by
  induction l with
  | nil => simp [RoundTrip.heightList]
  | cons n ns ih =>
    have h1 := h n (List.mem_cons_self n ns)
    have h2 := ih (fun x hx => h x (List.mem_cons_of_mem n hx))
    simp only [RoundTrip.heightList]
    omega

/-- Past the depth limit every node is dropped, so the child loop collects
nothing. -/
theorem traverseList_at_limit (maxD depth : Nat) (ds : List Dom)
    (h : depth ≥ maxD) : DomTraverser.traverseList maxD depth ds = [] := by
  induction ds with
  | nil => rfl
  | cons d rest ih =>
    have hd : DomTraverser.traverse maxD depth d = none := by
      unfold DomTraverser.traverse
      rw [if_pos h]
    simp only [DomTraverser.traverseList, hd]
    exact ih

mutual

theorem traverse_height_le (maxD depth : Nat) (dom : Dom) :
    ∀ n, DomTraverser.traverse maxD depth dom = some n →
      depth + RoundTrip.heightNode n < maxD := by
  intro n h
  unfold DomTraverser.traverse at h
  by_cases hd : depth ≥ maxD
  · rw [if_pos hd] at h
    exact absurd h (by simp)
  · rw [if_neg hd] at h
    cases dom with
    | element tagName attrs childNodes =>
      by_cases hc : childNodes.length > 0
      · simp only [hc, if_true] at h
        cases h
        have hmem := traverseList_height_le maxD (depth + 1) childNodes
        have hb := heightList_le_of_forall
          (DomTraverser.traverseList maxD (depth + 1) childNodes)
          (maxD - depth - 1)
          (fun x hx => by have := hmem x hx; omega)
        simp only [RoundTrip.heightNode]
        omega
      · simp only [hc, if_false] at h
        cases h
        simp only [RoundTrip.heightNode]
        omega
    | text s =>
      by_cases ht : jsTrim s = ""
      · simp [ht] at h
      · simp only [ht, if_false] at h
        cases h
        simp only [RoundTrip.heightNode]
        omega
    | comment s =>
      cases h
      simp only [RoundTrip.heightNode]
      omega
    | other cs => exact absurd h (by simp)

theorem traverseList_height_le (maxD depth : Nat) (ds : List Dom) :
    ∀ n ∈ DomTraverser.traverseList maxD depth ds,
      depth + RoundTrip.heightNode n < maxD := by
  intro n hn
  match ds with
  | [] => simp [DomTraverser.traverseList] at hn
  | d :: rest =>
    rw [DomTraverser.traverseList] at hn
    cases hone : DomTraverser.traverse maxD depth d with
    | some m =>
      rw [hone] at hn
      rcases List.mem_cons.mp hn with h | h
      · subst h
        exact traverse_height_le maxD depth d n hone
      · exact traverseList_height_le maxD depth rest n h
    | none =>
      rw [hone] at hn
      exact traverseList_height_le maxD depth rest n hn

end

/-- Claim C1 (amended): extraction never emits a node deeper than the depth
limit (every emitted tree's height stays below `maxDepth`); but the marker
is the reverse of the claim's — an element whose descent is cut off at the
boundary and that has DOM children is emitted with `children: []` (an empty
array), while it is the element with no DOM children that carries no
`children` key at all. -/
theorem depth_truncation_semantics :
    (∀ (maxD : Nat) (dom : Dom) (n : Node),
      DomTraverser.traverse maxD 0 dom = some n →
      RoundTrip.heightNode n < maxD) ∧
    (∀ (maxD : Nat) (tag : String) (attrs : List (String × String))
        (c : Dom) (cs : List Dom), 1 ≤ maxD →
      DomTraverser.traverse maxD (maxD - 1) (Dom.element tag attrs (c :: cs)) =
        some (.element (DomTraverser.processElement tag attrs).1
          (DomTraverser.processElement tag attrs).2 (some []))) ∧
    (∀ (maxD depth : Nat) (tag : String) (attrs : List (String × String)),
        depth < maxD →
      DomTraverser.traverse maxD depth (Dom.element tag attrs []) =
        some (.element (DomTraverser.processElement tag attrs).1
          (DomTraverser.processElement tag attrs).2 none)) := by
  refine ⟨?_, ?_, ?_⟩
  · intro maxD dom n h
    have := traverse_height_le maxD 0 dom n h
    omega
  · intro maxD tag attrs c cs h1
    have hlt : ¬ (maxD - 1 ≥ maxD) := by omega
    unfold DomTraverser.traverse
    rw [if_neg hlt]
    have hempty : DomTraverser.traverseList maxD (maxD - 1 + 1) (c :: cs) = [] :=
      traverseList_at_limit maxD (maxD - 1 + 1) (c :: cs) (by omega)
    simp [hempty]
  · intro maxD depth tag attrs h
    have hlt : ¬ (depth ≥ maxD) := by omega
    unfold DomTraverser.traverse
    rw [if_neg hlt]
    simp

/-- Claim C1's counterexample: at `maxDepth = 1` a root element with a DOM
child is emitted with `children: []` — an empty array, not a missing
`children` key. -/
theorem depth_truncation_counterexample :
    DomTraverser.traverse 1 0 (Dom.element "div" [] [Dom.element "span" [] []]) =
      some (.element "div" [] (some [])) ∧
    (some ([] : List Node)) ≠ (none : Option (List Node)) :=
  ⟨rfl, by simp⟩

/-- Witness for `depth_truncation_semantics` on a two-level DOM at
`maxDepth` 1 and 5. -/
theorem depth_truncation_semantics_witness :
    RoundTrip.heightNode (Node.element "div" [] (some [])) < 1 ∧
    DomTraverser.traverse 1 0 (Dom.element "div" [] [Dom.element "span" [] []]) =
      some (.element "div" [] (some [])) ∧
    DomTraverser.traverse 5 2 (Dom.element "p" [("id", "z")] []) =
      some (.element "p" [("id", "z")] none) := by
  refine ⟨?_, ?_, ?_⟩
  · exact depth_truncation_semantics.1 1 (Dom.element "div" [] [Dom.element "span" [] []])
      (Node.element "div" [] (some [])) rfl
  · have := depth_truncation_semantics.2.1 1 "div" [] (Dom.element "span" [] []) []
      (by decide)
    simpa using this
  · have := depth_truncation_semantics.2.2 5 2 "p" [("id", "z")] (by decide)
    simpa using this

/-! ## C2: round-trip — character-class and escaping lemmas -/

namespace RoundTrip

theorem tagChar_ne (c : Char) (h : HtmlParse.isTagNameChar c = true) :
    c ≠ '/' ∧ c ≠ '!' ∧ c ≠ '<' := by
  refine ⟨?_, ?_, ?_⟩ <;> rintro rfl <;> exact absurd h (by decide)

theorem toLower_eq_of_tagChar (c : Char) (h : HtmlParse.isTagNameChar c = true) :
    c.toLower = c := by
  have hn : 97 ≤ c.toNat ∨ c.toNat ≤ 57 := by
    simp only [HtmlParse.isTagNameChar, Bool.or_eq_true, Bool.and_eq_true,
      decide_eq_true_eq] at h
    rcases h with ⟨h1, _⟩ | ⟨_, h2⟩
    · left
      rw [Char.le_def, UInt32.le_def] at h1
      exact h1
    · right
      rw [Char.le_def, UInt32.le_def] at h2
      exact h2
  unfold Char.toLower
  rw [if_neg (by omega)]

theorem attrChar_facts (c : Char) (h : attrChar c = true) :
    HtmlParse.isAttrNameChar c = true ∧ HtmlParse.isSpaceChar c = false ∧
    c ≠ '>' ∧ c ≠ '/' := by
  have hne : c ≠ '=' ∧ c ≠ ' ' ∧ c ≠ '\t' ∧ c ≠ '\n' ∧ c ≠ '\r' ∧ c ≠ '>' ∧
      c ≠ '/' ∧ c ≠ '"' := by
    refine ⟨?_, ?_, ?_, ?_, ?_, ?_, ?_, ?_⟩ <;> rintro rfl <;>
      exact absurd h (by decide)
  obtain ⟨h1, h2, h3, h4, h5, h6, h7, h8⟩ := hne
  refine ⟨?_, ?_, h6, h7⟩
  · simp [HtmlParse.isAttrNameChar, h1, h2, h3, h4, h5, h6, h7, h8]
  · simp [HtmlParse.isSpaceChar, h2, h3, h4, h5]

theorem escapeHTMLChar_ne_nil (c : Char) : Formatter.escapeHTMLChar c ≠ [] := by
  unfold Formatter.escapeHTMLChar
  split_ifs <;> simp

theorem mem_escapeHTMLChar (c x : Char) (h : x ∈ Formatter.escapeHTMLChar c) :
    x ≠ '<' ∧ x ≠ '"' := by
  unfold Formatter.escapeHTMLChar at h
  split_ifs at h with h1 h2 h3 h4 h5
  · exact (by decide : ∀ y ∈ (['&', 'a', 'm', 'p', ';'] : List Char),
      y ≠ '<' ∧ y ≠ '"') x h
  · exact (by decide : ∀ y ∈ (['&', 'l', 't', ';'] : List Char),
      y ≠ '<' ∧ y ≠ '"') x h
  · exact (by decide : ∀ y ∈ (['&', 'g', 't', ';'] : List Char),
      y ≠ '<' ∧ y ≠ '"') x h
  · exact (by decide : ∀ y ∈ (['&', 'q', 'u', 'o', 't', ';'] : List Char),
      y ≠ '<' ∧ y ≠ '"') x h
  · exact (by decide : ∀ y ∈ (['&', '#', '0', '3', '9', ';'] : List Char),
      y ≠ '<' ∧ y ≠ '"') x h
  · have hx : x = c := by simpa using h
    subst hx
    exact ⟨h2, h4⟩

theorem mem_escListHTML (cs : List Char) (x : Char)
    (h : x ∈ Formatter.escListHTML cs) : x ≠ '<' ∧ x ≠ '"' := by
  induction cs with
  | nil => simp [Formatter.escListHTML] at h
  | cons c rest ih =>
    simp only [Formatter.escListHTML, List.mem_append] at h
    rcases h with h | h
    · exact mem_escapeHTMLChar c x h
    · exact ih h

theorem unescape_escListHTML (cs : List Char) :
    HtmlParse.unescape (Formatter.escListHTML cs) = cs := by
  induction cs with
  | nil =>
    show HtmlParse.unescape [] = []
    rw [HtmlParse.unescape]
  | cons c rest ih =>
    show HtmlParse.unescape (Formatter.escapeHTMLChar c ++ Formatter.escListHTML rest) = c :: rest
    unfold Formatter.escapeHTMLChar
    split_ifs with h1 h2 h3 h4 h5
    · subst h1
      simp only [List.cons_append, List.nil_append]
      rw [HtmlParse.unescape]
      simp [ih]
    · subst h2
      simp only [List.cons_append, List.nil_append]
      rw [HtmlParse.unescape]
      simp [ih]
    · subst h3
      simp only [List.cons_append, List.nil_append]
      rw [HtmlParse.unescape]
      simp [ih]
    · subst h4
      simp only [List.cons_append, List.nil_append]
      rw [HtmlParse.unescape]
      simp [ih]
    · subst h5
      simp only [List.cons_append, List.nil_append]
      rw [HtmlParse.unescape]
      simp [ih]
    · simp only [List.cons_append, List.nil_append]
      rw [HtmlParse.unescape]
      rw [if_neg h1]
      rw [ih]

theorem takeWhile_append_of_all {p : Char → Bool} (xs ys : List Char)
    (h : ∀ x ∈ xs, p x = true) :
    (xs ++ ys).takeWhile p = xs ++ ys.takeWhile p := by
  induction xs with
  | nil => simp
  | cons x rest ih =>
    have hx := h x (List.mem_cons_self x rest)
    simp only [List.cons_append, List.takeWhile_cons, hx, if_true]
    rw [ih (fun y hy => h y (List.mem_cons_of_mem x hy))]

theorem dropWhile_append_of_all {p : Char → Bool} (xs ys : List Char)
    (h : ∀ x ∈ xs, p x = true) :
    (xs ++ ys).dropWhile p = ys.dropWhile p := by
  induction xs with
  | nil => simp
  | cons x rest ih =>
    have hx := h x (List.mem_cons_self x rest)
    simp only [List.cons_append, List.dropWhile_cons, hx, if_true]
    exact ih (fun y hy => h y (List.mem_cons_of_mem x hy))

theorem takeWhile_cons_of_neg {p : Char → Bool} (x : Char) (xs : List Char)
    (h : p x = false) : (x :: xs).takeWhile p = [] := by
  simp [List.takeWhile_cons, h]

theorem dropWhile_cons_of_neg {p : Char → Bool} (x : Char) (xs : List Char)
    (h : p x = false) : (x :: xs).dropWhile p = x :: xs := by
  simp [List.dropWhile_cons, h]

theorem attrNameOK_data (k : String) (h : attrNameOK k = true) :
    (∀ x ∈ k.data, attrChar x = true) ∧ k.data ≠ [] := by
  unfold attrNameOK at h
  simp only [Bool.and_eq_true, decide_eq_true_eq, ne_eq] at h
  obtain ⟨h1, h2⟩ := h
  constructor
  · intro x hx
    exact List.all_eq_true.mp h2 x hx
  · intro hd
    exact h1 (String.ext hd)

/-- The rendering of one attribute list followed by `>` parses back to the
same list, leaving the `>` unconsumed. -/
theorem parseAttrs_unrender (attrs : List (String × String)) :
    ∀ (fuel : Nat) (r : List Char),
      (∀ kv ∈ attrs, attrNameOK kv.1 = true) →
      attrs.length < fuel →
      HtmlParse.parseAttrs fuel (Formatter.formatAttributes attrs ++ '>' :: r) =
        some (attrs, '>' :: r) := by
  induction attrs with
  | nil =>
    intro fuel r _ hf
    obtain ⟨f, rfl⟩ : ∃ f, fuel = f + 1 := ⟨fuel - 1, by omega⟩
    show HtmlParse.parseAttrs (f + 1) ('>' :: r) = some ([], '>' :: r)
    rw [HtmlParse.parseAttrs]
    simp [HtmlParse.isSpaceChar]
  | cons kv rest ih =>
    obtain ⟨k, v⟩ := kv
    intro fuel r hok hf
    obtain ⟨f, rfl⟩ : ∃ f, fuel = f + 1 := ⟨fuel - 1, by omega⟩
    obtain ⟨hkchars, hkne⟩ :=
      attrNameOK_data k (hok (k, v) (List.mem_cons_self _ _))
    obtain ⟨kh, ktl, hk⟩ : ∃ kh ktl, k.data = kh :: ktl := by
      cases hkd : k.data with
      | nil => exact absurd hkd hkne
      | cons a b => exact ⟨a, b, rfl⟩
    have hkh : attrChar kh = true := hkchars kh (by rw [hk]; exact List.mem_cons_self _ _)
    obtain ⟨hkhName, hkhSpace, hkhGt, hkhSlash⟩ := attrChar_facts kh hkh
    -- normalize the rendered input
    have hrender : Formatter.formatAttributes ((k, v) :: rest) ++ '>' :: r =
        ' ' :: (k.data ++ '=' :: '"' ::
          (Formatter.escListHTML v.data ++ '"' ::
            (Formatter.formatAttributes rest ++ '>' :: r))) := by
      show (' ' :: k.data ++ '=' :: '"' :: Formatter.escListHTML v.data ++
          '"' :: Formatter.formatAttributes rest) ++ '>' :: r = _
      simp [List.append_assoc]
    rw [hrender, HtmlParse.parseAttrs]
    have hdrop : (' ' :: (k.data ++ '=' :: '"' ::
        (Formatter.escListHTML v.data ++ '"' ::
          (Formatter.formatAttributes rest ++ '>' :: r)))).dropWhile
            HtmlParse.isSpaceChar =
        kh :: (ktl ++ '=' :: '"' ::
          (Formatter.escListHTML v.data ++ '"' ::
            (Formatter.formatAttributes rest ++ '>' :: r))) := by
      rw [List.dropWhile_cons]
      simp only [show HtmlParse.isSpaceChar ' ' = true from rfl, if_true]
      rw [hk]
      simp only [List.cons_append]
      exact dropWhile_cons_of_neg _ _ hkhSpace
    rw [hdrop]
    simp only [hkhGt, hkhSlash, Bool.or_self, if_false, decide_eq_true_eq]
    have hX : kh :: (ktl ++ '=' :: '"' ::
        (Formatter.escListHTML v.data ++ '"' ::
          (Formatter.formatAttributes rest ++ '>' :: r))) =
        k.data ++ '=' :: '"' ::
          (Formatter.escListHTML v.data ++ '"' ::
            (Formatter.formatAttributes rest ++ '>' :: r)) := by
      rw [hk]
      rfl
    rw [hX]
    have hnameAll : ∀ x ∈ k.data, HtmlParse.isAttrNameChar x = true :=
      fun x hx => (attrChar_facts x (hkchars x hx)).1
    have htw : List.takeWhile HtmlParse.isAttrNameChar
        (k.data ++ '=' :: '"' ::
          (Formatter.escListHTML v.data ++ '"' ::
            (Formatter.formatAttributes rest ++ '>' :: r))) = k.data := by
      rw [takeWhile_append_of_all _ _ hnameAll,
        takeWhile_cons_of_neg _ _ (by decide)]
      simp
    have hdw : List.dropWhile HtmlParse.isAttrNameChar
        (k.data ++ '=' :: '"' ::
          (Formatter.escListHTML v.data ++ '"' ::
            (Formatter.formatAttributes rest ++ '>' :: r))) =
        '=' :: '"' :: (Formatter.escListHTML v.data ++ '"' ::
          (Formatter.formatAttributes rest ++ '>' :: r)) := by
      rw [dropWhile_append_of_all _ _ hnameAll]
      exact dropWhile_cons_of_neg _ _ (by decide)
    have hvAll : ∀ x ∈ Formatter.escListHTML v.data,
        (fun y => decide (y ≠ '"')) x = true := by
      intro x hx
      simpa using (mem_escListHTML v.data x hx).2
    have hvtw : List.takeWhile (fun y => decide (y ≠ '"'))
        (Formatter.escListHTML v.data ++ '"' ::
          (Formatter.formatAttributes rest ++ '>' :: r)) =
        Formatter.escListHTML v.data := by
      rw [takeWhile_append_of_all _ _ hvAll,
        takeWhile_cons_of_neg _ _ (by decide)]
      simp
    have hvdw : List.dropWhile (fun y => decide (y ≠ '"'))
        (Formatter.escListHTML v.data ++ '"' ::
          (Formatter.formatAttributes rest ++ '>' :: r)) =
        '"' :: (Formatter.formatAttributes rest ++ '>' :: r) := by
      rw [dropWhile_append_of_all _ _ hvAll]
      exact dropWhile_cons_of_neg _ _ (by decide)
    have hie : k.data.isEmpty = false := by
      rw [hk]
      rfl
    have hih := ih f r (fun kv hkv => hok kv (List.mem_cons_of_mem _ hkv))
      (by simp only [List.length_cons] at hf; omega)
    rw [htw]
    simp only [hie, Bool.false_eq_true, if_false, hdw, hvtw, hvdw, hih,
      unescape_escListHTML]

theorem nfList_cons (a : Node) (l : List Node) (h : nfList (a :: l) = true) :
    nfNode a = true ∧ nfList l = true := by
  cases l with
  | nil => exact ⟨h, rfl⟩
  | cons b r =>
    simp only [nfList, Bool.and_eq_true] at h
    exact ⟨h.1.1, h.2⟩

theorem nfList_adj (a b : Node) (l : List Node)
    (h : nfList (a :: b :: l) = true) : (isTextNode a && isTextNode b) = false := by
  simp only [nfList, Bool.and_eq_true] at h
  have h2 := h.1.2
  cases hab : (isTextNode a && isTextNode b) with
  | false => rfl
  | true =>
    rw [hab] at h2
    simp at h2

theorem nfNode_text_parts (s : String) (h : nfNode (.text s) = true) :
    s ≠ "" ∧ jsTrim s = s := by
  simpa [nfNode, Bool.and_eq_true, decide_eq_true_eq] using h

theorem nfNode_element_parts (tag : String) (attrs : List (String × String))
    (children : Option (List Node))
    (h : nfNode (.element tag attrs children) = true) :
    tagOK tag = true ∧ Formatter.isSelfClosingTag tag = false ∧
    (∀ kv ∈ attrs, attrNameOK kv.1 = true) ∧ (attrs.map Prod.fst).Nodup ∧
    (children = none ∨ ∃ l, children = some l ∧ l ≠ [] ∧ nfList l = true) := by
  unfold nfNode at h
  simp only [Bool.and_eq_true] at h
  obtain ⟨⟨⟨⟨h1, h2⟩, h3⟩, h4⟩, h5⟩ := h
  refine ⟨h1, by simpa using h2, ?_, by simpa using h4, ?_⟩
  · intro kv hkv
    exact List.all_eq_true.mp h3 kv hkv
  · cases children with
    | none => exact Or.inl rfl
    | some l =>
      cases l with
      | nil => simp at h5
      | cons x xs => exact Or.inr ⟨x :: xs, rfl, by simp, h5⟩

theorem tagOK_data (tag : String) (h : tagOK tag = true) :
    (∀ x ∈ tag.data, HtmlParse.isTagNameChar x = true) ∧ tag.data ≠ [] := by
  unfold tagOK at h
  simp only [Bool.and_eq_true, decide_eq_true_eq, ne_eq] at h
  obtain ⟨h1, h2⟩ := h
  constructor
  · intro x hx
    exact List.all_eq_true.mp h2 x hx
  · intro hd
    exact h1 (String.ext hd)

theorem escListHTML_head (cs : List Char) (h : cs ≠ []) :
    ∃ e0 etl, Formatter.escListHTML cs = e0 :: etl := by
  cases cs with
  | nil => exact absurd rfl h
  | cons c rest =>
    show ∃ e0 etl,
      Formatter.escapeHTMLChar c ++ Formatter.escListHTML rest = e0 :: etl
    cases he : Formatter.escapeHTMLChar c with
    | nil => exact absurd he (escapeHTMLChar_ne_nil c)
    | cons e0 etl => exact ⟨e0, etl ++ Formatter.escListHTML rest, by simp⟩

theorem nodeToHTML_element_nf (tag : String) (a : List (String × String))
    (ch : Option (List Node))
    (htag : tag ≠ "") (hsc : Formatter.isSelfClosingTag tag = false) :
    Formatter.nodeToHTML (.element tag a ch) =
      '<' :: (tag.data ++ (Formatter.formatAttributes a ++ '>' ::
        (childRender ch ++ ('<' :: '/' :: (tag.data ++ ['>']))))) := by
  cases ch with
  | none =>
    unfold Formatter.nodeToHTML
    rw [if_neg htag]
    dsimp only
    rw [hsc]
    simp [List.append_assoc, childRender]
  | some l =>
    unfold Formatter.nodeToHTML
    rw [if_neg htag]
    dsimp only
    rw [hsc]
    simp [List.append_assoc, childRender]

theorem take_two_shape (r : List Char) (h : r.take 2 = ['<', '/']) :
    ∃ r2, r = '<' :: '/' :: r2 := by
  cases r with
  | nil => simp at h
  | cons a r1 =>
    cases r1 with
    | nil => simp at h
    | cons b r2 =>
      simp only [List.take, List.cons.injEq] at h
      exact ⟨r2, by rw [h.1, h.2.1]⟩

theorem formatAttributes_length (attrs : List (String × String)) :
    attrs.length ≤ (Formatter.formatAttributes attrs).length := by
  induction attrs with
  | nil => simp
  | cons kv rest ih =>
    show (kv :: rest).length ≤ (' ' :: kv.1.data ++ '=' :: '"' ::
      Formatter.escListHTML kv.2.data ++ '"' :: Formatter.formatAttributes rest).length
    simp only [List.length_cons, List.length_append]
    omega

theorem fmtAttrs_tag_stop (attrs : List (String × String)) (X : List Char) :
    (Formatter.formatAttributes attrs ++ '>' :: X).takeWhile
        HtmlParse.isTagNameChar = [] ∧
    (Formatter.formatAttributes attrs ++ '>' :: X).dropWhile
        HtmlParse.isTagNameChar =
      Formatter.formatAttributes attrs ++ '>' :: X := by
  cases attrs with
  | nil =>
    constructor
    · exact takeWhile_cons_of_neg _ _ (by decide)
    · exact dropWhile_cons_of_neg _ _ (by decide)
  | cons kv rest =>
    have hshape : Formatter.formatAttributes (kv :: rest) ++ '>' :: X =
        ' ' :: (kv.1.data ++ '=' :: '"' ::
          Formatter.escListHTML kv.2.data ++ '"' ::
            Formatter.formatAttributes rest ++ '>' :: X) := by
      show (' ' :: kv.1.data ++ '=' :: '"' ::
        Formatter.escListHTML kv.2.data ++ '"' ::
          Formatter.formatAttributes rest) ++ '>' :: X = _
      simp [List.append_assoc]
    rw [hshape]
    constructor
    · exact takeWhile_cons_of_neg _ _ (by decide)
    · exact dropWhile_cons_of_neg _ _ (by decide)

theorem toDomList_length (l : List Node) : (toDomList l).length = l.length := by
  induction l with
  | nil => rfl
  | cons n ns ih => simp only [toDomList, List.length_cons, ih]

theorem map_toLower_of_tagChars (cs : List Char)
    (h : ∀ x ∈ cs, HtmlParse.isTagNameChar x = true) :
    cs.map Char.toLower = cs := by
  induction cs with
  | nil => rfl
  | cons c rest ih =>
    simp only [List.map_cons]
    rw [toLower_eq_of_tagChar c (h c (List.mem_cons_self c rest)),
      ih (fun x hx => h x (List.mem_cons_of_mem c hx))]

theorem jsToLower_of_tagOK (tag : String) (h : tagOK tag = true) :
    jsToLower tag = tag := by
  obtain ⟨h1, _⟩ := tagOK_data tag h
  unfold jsToLower
  rw [map_toLower_of_tagChars tag.data h1]

theorem objSet_append_not_mem (m : List (String × String)) (k v : String)
    (h : k ∉ m.map Prod.fst) :
    DomTraverser.objSet m k v = m ++ [(k, v)] := by
  induction m with
  | nil => rfl
  | cons kv rest ih =>
    obtain ⟨k0, v0⟩ := kv
    simp only [List.map_cons, List.mem_cons] at h
    push_neg at h
    show (if k0 = k then (k, v) :: rest else (k0, v0) :: DomTraverser.objSet rest k v) = _
    rw [if_neg (fun he => h.1 he.symm), ih h.2]
    rfl

theorem foldl_objSet_eq_append (attrs : List (String × String)) :
    ∀ acc : List (String × String),
      (attrs.map Prod.fst).Nodup →
      (∀ p ∈ attrs, p.1 ∉ acc.map Prod.fst) →
      attrs.foldl (fun a kv => DomTraverser.objSet a kv.1 kv.2) acc = acc ++ attrs := by
  induction attrs with
  | nil =>
    intro acc _ _
    simp
  | cons kv rest ih =>
    intro acc hnd hdisj
    obtain ⟨k, v⟩ := kv
    simp only [List.map_cons, List.nodup_cons] at hnd
    simp only [List.foldl_cons]
    rw [objSet_append_not_mem acc k v (hdisj (k, v) (List.mem_cons_self _ _))]
    rw [ih (acc ++ [(k, v)]) hnd.2 ?_]
    · simp
    · intro p hp
      simp only [List.map_append, List.mem_append, List.map_cons, List.map_nil,
        List.mem_singleton]
      rintro (hins | hins)
      · exact hdisj p (List.mem_cons_of_mem _ hp) hins
      · exact hnd.1 (hins ▸ List.mem_map_of_mem Prod.fst hp)

theorem copy_attrs_eq (attrs : List (String × String))
    (hnd : (attrs.map Prod.fst).Nodup) :
    attrs.foldl (fun a kv => DomTraverser.objSet a kv.1 kv.2) [] = attrs := by
  have h := foldl_objSet_eq_append attrs [] hnd (by simp)
  simpa using h

theorem objSet_lookup_self (m : List (String × String)) (k v : String)
    (h : DomTraverser.objLookup m k = some v) :
    DomTraverser.objSet m k v = m := by
  induction m with
  | nil => simp [DomTraverser.objLookup] at h
  | cons kv rest ih =>
    obtain ⟨k0, v0⟩ := kv
    show (if k0 = k then (k, v) :: rest else (k0, v0) :: DomTraverser.objSet rest k v) = _
    by_cases he : k0 = k
    · rw [if_pos he]
      have hv : v0 = v := by
        have h2 : (if k0 = k then some v0 else DomTraverser.objLookup rest k) = some v := h
        rw [if_pos he] at h2
        exact Option.some.inj h2
      rw [he, hv]
    · rw [if_neg he]
      have h2 : (if k0 = k then some v0 else DomTraverser.objLookup rest k) = some v := h
      rw [if_neg he] at h2
      rw [ih h2]

theorem writeback_id (attrs : List (String × String)) (key : String) :
    (if (DomTraverser.objLookup attrs key).getD "" ≠ "" then
        DomTraverser.objSet attrs key ((DomTraverser.objLookup attrs key).getD "")
      else attrs) = attrs := by
  cases hl : DomTraverser.objLookup attrs key with
  | none => simp [hl]
  | some v =>
    by_cases hv : v = ""
    · simp [hl, hv]
    · simp only [hl, Option.getD_some]
      rw [if_pos hv]
      exact objSet_lookup_self attrs key v hl

theorem processElement_nf (tag : String) (attrs : List (String × String))
    (htag : tagOK tag = true) (hnd : (attrs.map Prod.fst).Nodup) :
    DomTraverser.processElement tag attrs = (tag, attrs) := by
  unfold DomTraverser.processElement
  dsimp only
  rw [jsToLower_of_tagOK tag htag, copy_attrs_eq attrs hnd,
    writeback_id attrs "id", writeback_id attrs "class"]

mutual

theorem traverse_toDom (maxD depth : Nat) (t : Node) :
    nfNode t = true → depth + heightNode t < maxD →
    DomTraverser.traverse maxD depth (toDom t) = some t := by
  intro hnf hd
  cases t with
  | text s =>
    obtain ⟨hs, htr⟩ := nfNode_text_parts s hnf
    show DomTraverser.traverse maxD depth (.text s) = some (.text s)
    unfold DomTraverser.traverse
    rw [if_neg (by omega)]
    dsimp only
    rw [htr, if_neg hs]
  | comment s => exact absurd hnf (by simp [nfNode])
  | element tag attrs ch =>
    obtain ⟨htag, hsc, hok, hnd, hch⟩ := nfNode_element_parts tag attrs ch hnf
    rcases hch with rfl | ⟨l, rfl, hlne, hlnf⟩
    · show DomTraverser.traverse maxD depth (.element tag attrs []) =
        some (.element tag attrs none)
      unfold DomTraverser.traverse
      rw [if_neg (by omega)]
      dsimp only
      rw [processElement_nf tag attrs htag hnd]
      simp
    · show DomTraverser.traverse maxD depth (.element tag attrs (toDomList l)) =
        some (.element tag attrs (some l))
      have hlen : (toDomList l).length > 0 := by
        rw [toDomList_length]
        cases l with
        | nil => exact absurd rfl hlne
        | cons a b => simp
      have hdl : (depth + 1) + heightList l ≤ maxD := by
        have : heightNode (Node.element tag attrs (some l)) = heightList l := rfl
        omega
      unfold DomTraverser.traverse
      rw [if_neg (by omega)]
      dsimp only
      rw [processElement_nf tag attrs htag hnd, if_pos hlen,
        traverseList_toDom maxD (depth + 1) l hlnf hdl]

theorem traverseList_toDom (maxD depth : Nat) (l : List Node) :
    nfList l = true → depth + heightList l ≤ maxD →
    DomTraverser.traverseList maxD depth (toDomList l) = l := by
  intro hnf hd
  cases l with
  | nil => rfl
  | cons n ns =>
    obtain ⟨hn, hns⟩ := nfList_cons n ns hnf
    have hh : heightList (n :: ns) = max (heightNode n + 1) (heightList ns) := rfl
    have hdn : depth + heightNode n < maxD := by omega
    have hdns : depth + heightList ns ≤ maxD := by omega
    show DomTraverser.traverseList maxD depth (toDom n :: toDomList ns) = n :: ns
    rw [DomTraverser.traverseList]
    rw [traverse_toDom maxD depth n hn hdn,
      traverseList_toDom maxD depth ns hns hdns]

end

theorem render_tail_stop (ts : List Node) (r : List Char)
    (hnf : nfList ts = true)
    (hht : ∀ t0 ts0, ts = t0 :: ts0 → isTextNode t0 = false)
    (hr : r = [] ∨ ∃ r2, r = '<' :: '/' :: r2) :
    (Formatter.nodesToHTML ts ++ r).takeWhile (fun x => decide (x ≠ '<')) = [] ∧
    (Formatter.nodesToHTML ts ++ r).dropWhile (fun x => decide (x ≠ '<')) =
      Formatter.nodesToHTML ts ++ r := by
  have hshape : Formatter.nodesToHTML ts ++ r = [] ∨
      ∃ w, Formatter.nodesToHTML ts ++ r = '<' :: w := by
    cases ts with
    | nil =>
      rcases hr with rfl | ⟨r2, rfl⟩
      · exact Or.inl rfl
      · exact Or.inr ⟨'/' :: r2, rfl⟩
    | cons t0 ts0 =>
      obtain ⟨h0, _⟩ := nfList_cons t0 ts0 hnf
      cases t0 with
      | text s => exact absurd (hht (.text s) ts0 rfl) (by simp [isTextNode])
      | comment s => exact absurd h0 (by simp [nfNode])
      | element tag attrs ch =>
        obtain ⟨htag, hsc, _, _, _⟩ := nfNode_element_parts tag attrs ch h0
        have htag2 : tag ≠ "" := by
          intro he
          rw [he] at htag
          exact absurd htag (by decide)
        obtain ⟨z, hz⟩ : ∃ z, Formatter.nodeToHTML (.element tag attrs ch) = '<' :: z :=
          ⟨_, nodeToHTML_element_nf tag attrs ch htag2 hsc⟩
        refine Or.inr ⟨z ++ (Formatter.nodesToHTML ts0 ++ r), ?_⟩
        show (Formatter.nodeToHTML (.element tag attrs ch) ++
            Formatter.nodesToHTML ts0) ++ r = _
        rw [hz]
        simp [List.append_assoc]
  rcases hshape with h | ⟨w, h⟩
  · rw [h]
    exact ⟨rfl, rfl⟩
  · rw [h]
    exact ⟨takeWhile_cons_of_neg _ _ (by decide), dropWhile_cons_of_neg _ _ (by decide)⟩

set_option maxHeartbeats 1000000

theorem parseNodes_unrender (fuel : Nat) :
    ∀ (ts : List Node) (r : List Char),
      nfList ts = true →
      (r = [] ∨ ∃ r2, r = '<' :: '/' :: r2) →
      (Formatter.nodesToHTML ts ++ r).length < fuel →
      HtmlParse.parseNodes fuel (Formatter.nodesToHTML ts ++ r) =
        some (toDomList ts, r) := by
  induction fuel with
  | zero =>
    intro ts r _ _ hlen
    exact absurd hlen (Nat.not_lt_zero _)
  | succ f ih =>
    intro ts r hnf hr hlen
    cases ts with
    | nil =>
      rcases hr with rfl | ⟨r2, rfl⟩
      · rfl
      · rfl
    | cons t ts' =>
      obtain ⟨hnt, hnts⟩ := nfList_cons t ts' hnf
      cases t with
      | comment s => exact absurd hnt (by simp [nfNode])
      | text s =>
        obtain ⟨hs, htr⟩ := nfNode_text_parts s hnt
        have hsd : s.data ≠ [] := fun hd => hs (String.ext hd)
        obtain ⟨e0, etl, hesc⟩ := escListHTML_head s.data hsd
        have he0 : e0 ≠ '<' := by
          have hmem : e0 ∈ Formatter.escListHTML s.data := by
            rw [hesc]
            exact List.mem_cons_self _ _
          exact (mem_escListHTML s.data e0 hmem).1
        have hht : ∀ t0 ts0, ts' = t0 :: ts0 → isTextNode t0 = false := by
          intro t0 ts0 he
          subst he
          have hadj := nfList_adj (.text s) t0 ts0 hnf
          simpa [isTextNode] using hadj
        have hstop := render_tail_stop ts' r hnts hht hr
        have hshape : Formatter.nodesToHTML (Node.text s :: ts') ++ r =
            e0 :: (etl ++ (Formatter.nodesToHTML ts' ++ r)) := by
          show (Formatter.escListHTML s.data ++ Formatter.nodesToHTML ts') ++ r = _
          rw [hesc]
          simp [List.append_assoc]
        rw [hshape, HtmlParse.parseNodes, if_neg he0]
        dsimp only
        have hback : e0 :: (etl ++ (Formatter.nodesToHTML ts' ++ r)) =
            Formatter.escListHTML s.data ++ (Formatter.nodesToHTML ts' ++ r) := by
          rw [hesc]
          rfl
        rw [hback]
        have hall : ∀ x ∈ Formatter.escListHTML s.data,
            (fun y => decide (y ≠ '<')) x = true := by
          intro x hx
          simpa using (mem_escListHTML s.data x hx).1
        have htw : (Formatter.escListHTML s.data ++
            (Formatter.nodesToHTML ts' ++ r)).takeWhile (fun y => decide (y ≠ '<')) =
            Formatter.escListHTML s.data := by
          rw [takeWhile_append_of_all _ _ hall, hstop.1, List.append_nil]
        have hdw : (Formatter.escListHTML s.data ++
            (Formatter.nodesToHTML ts' ++ r)).dropWhile (fun y => decide (y ≠ '<')) =
            Formatter.nodesToHTML ts' ++ r := by
          rw [dropWhile_append_of_all _ _ hall, hstop.2]
        have hlen2 : (Formatter.nodesToHTML ts' ++ r).length < f := by
          have hcl := congrArg List.length hshape
          simp only [List.length_append, List.length_cons] at hcl hlen ⊢
          omega
        have hih := ih ts' r hnts hr hlen2
        rw [htw, hdw, hih]
        dsimp only
        rw [unescape_escListHTML]
        rfl
      | element tag attrs ch =>
        obtain ⟨htag, hsc, hok, hnd, hch⟩ := nfNode_element_parts tag attrs ch hnt
        obtain ⟨htagAll, htagne⟩ := tagOK_data tag htag
        have htag2 : tag ≠ "" := by
          intro he
          rw [he] at htag
          exact absurd htag (by decide)
        obtain ⟨c0, ctl, hc⟩ : ∃ c0 ctl, tag.data = c0 :: ctl := by
          cases hcd : tag.data with
          | nil => exact absurd hcd htagne
          | cons a b => exact ⟨a, b, rfl⟩
        have hc0 : HtmlParse.isTagNameChar c0 = true :=
          htagAll c0 (by rw [hc]; exact List.mem_cons_self _ _)
        obtain ⟨hc0s, hc0b, hc0l⟩ := tagChar_ne c0 hc0
        obtain ⟨chL, hmatch, hnfc, hdom⟩ : ∃ chL,
            childRender ch = Formatter.nodesToHTML chL ∧
            nfList chL = true ∧
            toDom (.element tag attrs ch) = Dom.element tag attrs (toDomList chL) := by
          rcases hch with rfl | ⟨l, rfl, hlne, hlnf⟩
          · exact ⟨[], rfl, rfl, rfl⟩
          · exact ⟨l, rfl, hlnf, rfl⟩
        have hsplit : ∀ Z : List Char, tag.data ++ Z = c0 :: (ctl ++ Z) := by
          intro Z
          rw [hc]
          rfl
        have hshape0 : Formatter.nodesToHTML (Node.element tag attrs ch :: ts') ++ r =
            '<' :: (tag.data ++ (Formatter.formatAttributes attrs ++ '>' ::
              (Formatter.nodesToHTML chL ++ ('<' :: '/' :: (tag.data ++ '>' ::
                (Formatter.nodesToHTML ts' ++ r)))))) := by
          show (Formatter.nodeToHTML (.element tag attrs ch) ++
              Formatter.nodesToHTML ts') ++ r = _
          rw [nodeToHTML_element_nf tag attrs ch htag2 hsc, hmatch]
          simp [List.append_assoc]
        have hshape : Formatter.nodesToHTML (Node.element tag attrs ch :: ts') ++ r =
            '<' :: (c0 :: (ctl ++ (Formatter.formatAttributes attrs ++ '>' ::
              (Formatter.nodesToHTML chL ++ ('<' :: '/' :: (tag.data ++ '>' ::
                (Formatter.nodesToHTML ts' ++ r))))))) := by
          rw [hshape0, hsplit]
        have hdlen : tag.data.length = ctl.length + 1 := by
          rw [hc]
          rfl
        have hlenX : (Formatter.nodesToHTML chL ++ ('<' :: '/' :: (tag.data ++ '>' ::
            (Formatter.nodesToHTML ts' ++ r)))).length < f := by
          have hcl := congrArg List.length hshape
          simp only [List.length_append, List.length_cons] at hcl hlen ⊢
          omega
        have hlenT : (Formatter.nodesToHTML ts' ++ r).length < f := by
          have hcl := congrArg List.length hshape
          simp only [List.length_append, List.length_cons] at hcl hlen ⊢
          omega
        have hih1 := ih chL ('<' :: '/' :: (tag.data ++ '>' ::
          (Formatter.nodesToHTML ts' ++ r))) hnfc (Or.inr ⟨_, rfl⟩) hlenX
        have hih2 := ih ts' r hnts hr hlenT
        rw [hshape, HtmlParse.parseNodes, if_pos rfl]
        have htake1 : (c0 :: (ctl ++ (Formatter.formatAttributes attrs ++ '>' ::
            (Formatter.nodesToHTML chL ++ ('<' :: '/' :: (tag.data ++ '>' ::
              (Formatter.nodesToHTML ts' ++ r))))))).take 1 = [c0] := rfl
        rw [if_neg (by rw [htake1]; simp [hc0s])]
        rw [if_neg (by
          intro hcon
          have hh1 : c0 = '!' := by
            have := congrArg List.head? hcon
            simpa using this
          exact hc0b hh1)]
        dsimp only
        have hrest : c0 :: (ctl ++ (Formatter.formatAttributes attrs ++ '>' ::
            (Formatter.nodesToHTML chL ++ ('<' :: '/' :: (tag.data ++ '>' ::
              (Formatter.nodesToHTML ts' ++ r)))))) =
            tag.data ++ (Formatter.formatAttributes attrs ++ '>' ::
              (Formatter.nodesToHTML chL ++ ('<' :: '/' :: (tag.data ++ '>' ::
                (Formatter.nodesToHTML ts' ++ r))))) := by
          rw [hc]
          rfl
        rw [hrest]
        have htw : (tag.data ++ (Formatter.formatAttributes attrs ++ '>' ::
            (Formatter.nodesToHTML chL ++ ('<' :: '/' :: (tag.data ++ '>' ::
              (Formatter.nodesToHTML ts' ++ r)))))).takeWhile
                HtmlParse.isTagNameChar = tag.data := by
          rw [takeWhile_append_of_all _ _ htagAll,
            (fmtAttrs_tag_stop attrs _).1, List.append_nil]
        have hdw : (tag.data ++ (Formatter.formatAttributes attrs ++ '>' ::
            (Formatter.nodesToHTML chL ++ ('<' :: '/' :: (tag.data ++ '>' ::
              (Formatter.nodesToHTML ts' ++ r)))))).dropWhile
                HtmlParse.isTagNameChar =
            Formatter.formatAttributes attrs ++ '>' ::
              (Formatter.nodesToHTML chL ++ ('<' :: '/' :: (tag.data ++ '>' ::
                (Formatter.nodesToHTML ts' ++ r)))) := by
          rw [dropWhile_append_of_all _ _ htagAll]
          exact (fmtAttrs_tag_stop attrs _).2
        rw [htw, hdw]
        have hie : tag.data.isEmpty = false := by
          rw [hc]
          rfl
        have hlt : attrs.length < (Formatter.formatAttributes attrs ++ '>' ::
            (Formatter.nodesToHTML chL ++ ('<' :: '/' :: (tag.data ++ '>' ::
              (Formatter.nodesToHTML ts' ++ r))))).length + 1 := by
          have hfa := formatAttributes_length attrs
          simp only [List.length_append, List.length_cons]
          omega
        have hpa := parseAttrs_unrender attrs
          ((Formatter.formatAttributes attrs ++ '>' ::
            (Formatter.nodesToHTML chL ++ ('<' :: '/' :: (tag.data ++ '>' ::
              (Formatter.nodesToHTML ts' ++ r))))).length + 1)
          (Formatter.nodesToHTML chL ++ ('<' :: '/' :: (tag.data ++ '>' ::
            (Formatter.nodesToHTML ts' ++ r)))) hok hlt
        simp only [hie, Bool.false_eq_true, if_false, hpa]
        rw [hih1]
        dsimp only
        split
        case _ rest5 heq =>
          obtain rfl : rest5 = tag.data ++ '>' :: (Formatter.nodesToHTML ts' ++ r) := by
            injection heq with h1 h2
            injection h2 with h3 h4
            exact h4.symm
          rw [List.take_left, if_pos rfl, List.drop_left]
          split
          case _ rest6 heq2 =>
            obtain rfl : rest6 = Formatter.nodesToHTML ts' ++ r := by
              injection heq2 with h1 h2
              exact h2.symm
            rw [hih2]
            dsimp only
            rw [show toDomList (Node.element tag attrs ch :: ts') =
              toDom (Node.element tag attrs ch) :: toDomList ts' from rfl, hdom]
          case _ x heq2 hne =>
            exact absurd rfl (hne (Formatter.nodesToHTML ts' ++ r))
        case _ x hne =>
          exact absurd rfl (hne (tag.data ++ '>' :: (Formatter.nodesToHTML ts' ++ r)))

end RoundTrip

/-- Claim C2 (corrected): the literal claim fails — a comment node is not
reproduced, because `nodeToHTML` renders `comment "x"` as `<!-- x -->` with
added padding spaces, and the parse keeps the raw payload `" x "`. -/
theorem roundtrip_comment_counterexample :
    RoundTrip.extractRoot 100 (HtmlParse.parseHTML
      (Formatter.nodeToHTML (.comment "x"))) = some (.comment " x ") ∧
    Node.comment " x " ≠ Node.comment "x" := by
  constructor
  · rfl
  · simp

/-- Claim C2 (amended): for a tree in round-trip normal form (element and
text nodes only, trimmed non-empty text, no adjacent text siblings, no
self-closing tags, valid unique attribute names, no `children: []`) whose
height is below the extraction depth limit, rendering to html, parsing and
re-extracting reproduces exactly the same tree. -/
theorem roundtrip_normal_form (t : Node) (maxD : Nat)
    (hnf : RoundTrip.nfNode t = true)
    (hh : RoundTrip.heightNode t < maxD) :
    RoundTrip.extractRoot maxD (HtmlParse.parseHTML (Formatter.nodeToHTML t)) =
      some t := by
  have hnfl : RoundTrip.nfList [t] = true := hnf
  have hone : Formatter.nodeToHTML t = Formatter.nodesToHTML [t] ++ [] := by
    simp [Formatter.nodesToHTML]
  have hp := RoundTrip.parseNodes_unrender
    ((Formatter.nodesToHTML [t] ++ []).length + 1) [t] [] hnfl (Or.inl rfl)
    (by omega)
  rw [hone]
  unfold HtmlParse.parseHTML
  rw [hp]
  dsimp only
  show RoundTrip.extractRoot maxD (some [RoundTrip.toDom t]) = some t
  show DomTraverser.traverse maxD 0 (RoundTrip.toDom t) = some t
  exact RoundTrip.traverse_toDom maxD 0 t hnf (by omega)

/-- Witness: a concrete normal-form tree (a `div` with two attributes, a
text child containing `<`, a childless `span`, and a trailing text child)
round-trips exactly at depth limit 100. -/
theorem roundtrip_normal_form_witness :
    RoundTrip.nfNode (Node.element "div" [("id", "m"), ("data-a", "1")]
      (some [Node.text "a<b", Node.element "span" [] none, Node.text "c"])) = true ∧
    RoundTrip.heightNode (Node.element "div" [("id", "m"), ("data-a", "1")]
      (some [Node.text "a<b", Node.element "span" [] none, Node.text "c"])) < 100 ∧
    RoundTrip.extractRoot 100 (HtmlParse.parseHTML (Formatter.nodeToHTML
      (Node.element "div" [("id", "m"), ("data-a", "1")]
        (some [Node.text "a<b", Node.element "span" [] none, Node.text "c"])))) =
      some (Node.element "div" [("id", "m"), ("data-a", "1")]
        (some [Node.text "a<b", Node.element "span" [] none, Node.text "c"])) :=
  ⟨by decide, by decide,
    roundtrip_normal_form _ 100 (by decide) (by decide)⟩

end HtmlToJson
